import Mathlib

/-!
Verification development for the `mdbook-diataxis` preprocessor
(`src/lib.rs`).  The definitions below are a shallow embedding of the
Rust source: TOML configuration values, the section-configuration
resolution (`Config::new`, `SectionConfig::new`), the chapter tree, the
relative-path resolver (`relative_to`), the directive renderers
(`Replacement::write_compass_to`, `Replacement::write_toc_to`) and the
Aho-Corasick leftmost-longest text substitution of
`DiataxisPreprocessor::preprocess_text`.
-/

namespace MdbookDiataxis

/-! ## TOML values (the subset of `toml::Value` shapes the code inspects) -/

/-- Shallow model of `toml::Value`: the code only distinguishes strings,
tables and "anything else" (via `as_str` / `as_table`), but we keep a few
concrete non-string, non-table shapes so that counterexample inputs are
explicit. -/
inductive TomlValue where
  | str (s : String)
  | int (n : Int)
  | boolean (b : Bool)
  | table (kvs : List (String × TomlValue))
  | array (vs : List TomlValue)
deriving Repr

/-- A TOML table: association list from keys to values (`toml::value::Table`). -/
abbrev TomlTable := List (String × TomlValue)

/-- `Table::get`: first binding of the key, if any. -/
def tableGet (t : TomlTable) (key : String) : Option TomlValue :=
  (t.find? (fun kv => kv.1 == key)).map (fun kv => kv.2)

/-- `toml::Value::as_str`. -/
def TomlValue.asStr : TomlValue → Option String
  | .str s => some s
  | _ => none

/-- `toml::Value::as_table`. -/
def TomlValue.asTable : TomlValue → Option TomlTable
  | .table kvs => some kvs
  | _ => none

/-! ## Link-path normalization helpers

`SectionConfig::new` manipulates the configured link with `std::path`
operations: `Path::file_name`, `Path::with_file_name` and
`PathBuf::set_extension`.  Links are relative, `/`-separated strings; we
model the three operations on such strings.  (Trailing-slash
normalization of `std::path` is not modelled; the configured links of
interest contain no trailing slash.) -/

/-- The characters after the last `/` (the whole string when there is
no `/`). -/
def lastComponentChars (cs : List Char) : List Char :=
  (cs.reverse.takeWhile (fun c => c ≠ '/')).reverse

/-- The characters up to and including the last `/` (empty when there
is no `/`). -/
def dirPrefixChars (cs : List Char) : List Char :=
  (cs.reverse.dropWhile (fun c => c ≠ '/')).reverse

/-- `Path::file_name`: the last path component, unless it is empty, `.`
or `..` (in which case there is no file name). -/
def fileName (p : String) : Option String :=
  let last := lastComponentChars p.data
  if last = [] ∨ last = ['.'] ∨ last = ['.', '.'] then none else some (String.mk last)

/-- `Path::with_file_name`: replace the last component. -/
def withFileName (p : String) (name : String) : String :=
  String.mk (dirPrefixChars p.data ++ name.data)

/-- Stem of a file name: the characters before the last `.`, unless
there is no `.` or the only `.` is the leading character (then the
whole name, which has no extension), per `std::path` semantics. -/
def fileStemChars (f : List Char) : List Char :=
  match f.reverse.dropWhile (fun c => c ≠ '.') with
  | [] => f
  | _ :: rest => if rest = [] then f else rest.reverse

/-- `PathBuf::set_extension ext`: replace (or add) the extension of the
file name; does nothing when the path has no file name. -/
def setExtension (p : String) (ext : String) : String :=
  match fileName p with
  | none => p
  | some f => String.mk (dirPrefixChars p.data ++ fileStemChars f.data ++ '.' :: ext.data)

/-! ## Section configuration (`SectionConfig`, `Config`) -/

/-- `SectionConfig`: per-section optional overrides (the link is kept as
its rendered string, standing for the `PathBuf`). -/
structure SectionConfig where
  title_override : Option String
  description_override : Option String
  link_override : Option String
deriving Repr, DecidableEq

/-- `SectionConfig::default()`. -/
def SectionConfig.defaultCfg : SectionConfig := ⟨none, none, none⟩

/-- One optional string field read of `SectionConfig::new`
(`get`/`as_str`/`ok_or_else`/`transpose?`): absent is fine, a present
non-string is the given error. -/
def readStrField (t : TomlTable) (key : String) (errMsg : String) :
    Except String (Option String) :=
  match tableGet t key with
  | none => .ok none
  | some v =>
    match v.asStr with
    | some s => .ok (some s)
    | none => .error errMsg

/-- The link normalization of `SectionConfig::new`: a `README.md` file
name becomes `index.html`, and the extension is set to `html`. -/
def normalizeLink (s : String) : String :=
  setExtension (if fileName s = some "README.md" then withFileName s "index.html" else s) "html"

/-- `SectionConfig::new`: read `title`, `description` and `link`
independently (each `?` propagating the first error); a present field
of the wrong shape is an error; the link is normalized. -/
def SectionConfig.new (config_table : TomlTable) : Except String SectionConfig :=
  match readStrField config_table "title" "`title` field must be a string" with
  | .error e => .error e
  | .ok title_override =>
    match readStrField config_table "description" "`description` field must be a string" with
    | .error e => .error e
    | .ok description_override =>
      match readStrField config_table "link" "`link` field must be a string" with
      | .error e => .error e
      | .ok link_raw =>
        .ok ⟨title_override, description_override, link_raw.map normalizeLink⟩

/-- `Config`: the four per-section configurations. -/
structure Config where
  tutorials : SectionConfig
  how_to_guides : SectionConfig
  reference : SectionConfig
  explanation : SectionConfig
deriving Repr, DecidableEq

/-- `Config::default()`. -/
def Config.defaultCfg : Config :=
  ⟨SectionConfig.defaultCfg, SectionConfig.defaultCfg, SectionConfig.defaultCfg,
   SectionConfig.defaultCfg⟩

/-- The per-section override lookup of `Config::new`: absent `compass`
key or absent section key falls back to the default section config; a
present value of the wrong shape is an error, with the section error
wrapped in a context naming the section. -/
def sectionOverrides (raw : TomlTable) (sectionName : String) : Except String SectionConfig :=
  match tableGet raw "compass" with
  | none => .ok SectionConfig.defaultCfg
  | some compassValue =>
    match compassValue.asTable with
    | none => .error "`compass` field must be a table"
    | some compassTable =>
      match tableGet compassTable sectionName with
      | none => .ok SectionConfig.defaultCfg
      | some sectionValue =>
        match sectionValue.asTable with
        | none => .error ("`compass." ++ sectionName ++ "` field must be a table")
        | some sectionTable =>
          match SectionConfig.new sectionTable with
          | .ok sc => .ok sc
          | .error e => .error ("cannot parse `compass." ++ sectionName ++ "` table: " ++ e)

/-- `Config::new`: resolve the four sections, in source order (each `?`
propagating the first error). -/
def Config.new (raw : TomlTable) : Except String Config :=
  match sectionOverrides raw "tutorials" with
  | .error e => .error e
  | .ok tutorials =>
    match sectionOverrides raw "how-to-guides" with
    | .error e => .error e
    | .ok how_to_guides =>
      match sectionOverrides raw "explanation" with
      | .error e => .error e
      | .ok explanation =>
        match sectionOverrides raw "reference" with
        | .error e => .error e
        | .ok reference => .ok ⟨tutorials, how_to_guides, reference, explanation⟩

/-- `Config::tutorials_title`. -/
def Config.tutorialsTitle (c : Config) : String :=
  c.tutorials.title_override.getD "Tutorials"

/-- `Config::tutorials_description`. -/
def Config.tutorialsDescription (c : Config) : String :=
  c.tutorials.description_override.getD "Hands-on lessons"

/-- `Config::tutorials_link`. -/
def Config.tutorialsLink (c : Config) : String :=
  c.tutorials.link_override.getD "./tutorials/index.html"

/-- `Config::how_to_guides_title`. -/
def Config.howToGuidesTitle (c : Config) : String :=
  c.how_to_guides.title_override.getD "How-to guides"

/-- `Config::how_to_guides_description`. -/
def Config.howToGuidesDescription (c : Config) : String :=
  c.how_to_guides.description_override.getD "Step-by-step instructions for common tasks"

/-- `Config::how_to_guides_link`. -/
def Config.howToGuidesLink (c : Config) : String :=
  c.how_to_guides.link_override.getD "./how-to/index.html"

/-- `Config::explanation_title`. -/
def Config.explanationTitle (c : Config) : String :=
  c.explanation.title_override.getD "Explanation"

/-- `Config::explanation_description`. -/
def Config.explanationDescription (c : Config) : String :=
  c.explanation.description_override.getD "Long-form discussion of key topics"

/-- `Config::explanation_link`. -/
def Config.explanationLink (c : Config) : String :=
  c.explanation.link_override.getD "./explanations/index.html"

/-- `Config::reference_title`. -/
def Config.referenceTitle (c : Config) : String :=
  c.reference.title_override.getD "Reference"

/-- `Config::reference_description`. -/
def Config.referenceDescription (c : Config) : String :=
  c.reference.description_override.getD "Technical information"

/-- `Config::reference_link`. -/
def Config.referenceLink (c : Config) : String :=
  c.reference.link_override.getD "./reference-materials/index.html"

/-! ## The document tree (`mdbook::book::Chapter`, `mdbook::BookItem`)

Source paths are modelled as their lists of path components; displaying
a path joins the components with `/`. -/

mutual
/-- `mdbook::book::Chapter` (the fields the preprocessor reads). -/
inductive Chapter where
  | mk (name : String) (content : String) (sourcePath : Option (List String))
      (subItems : List BookItem)
/-- `mdbook::BookItem`. -/
inductive BookItem where
  | chapter (c : Chapter)
  | separator
  | partTitle (title : String)
end

/-- The chapter's display name. -/
def Chapter.name : Chapter → String
  | .mk n _ _ _ => n

/-- The chapter's markdown content. -/
def Chapter.content : Chapter → String
  | .mk _ c _ _ => c

/-- The chapter's `source_path` (`none` for a draft chapter). -/
def Chapter.sourcePath : Chapter → Option (List String)
  | .mk _ _ p _ => p

/-- The chapter's child items. -/
def Chapter.subItems : Chapter → List BookItem
  | .mk _ _ _ s => s

/-- `Path::display` for a source path: components joined with `/`. -/
def displayPath (p : List String) : String :=
  String.intercalate "/" p

/-! ## Relative path resolution (`relative_to`) -/

/-- `std::path::Component`, restricted to the two shapes `relative_to`
produces or compares: normal components and the `RootDir` sentinel. -/
inductive PathComponent where
  | rootDir
  | normal (s : String)
deriving DecidableEq, Repr

/-- `relative_to`: zip the target's components against the source's
components extended with an infinite tail of `RootDir` sentinels
(modelled by padding to the target's length, which the zip truncates
to), skip the common prefix, and keep the remaining target components. -/
def relative_to (source target : List String) : List PathComponent :=
  (((target.map PathComponent.normal).zip
      (source.map PathComponent.normal ++ List.replicate target.length PathComponent.rootDir)).dropWhile
    (fun ts => ts.1 == ts.2)).map (fun ts => ts.1)

/-- `PathBuf::display` of a component. -/
def componentDisplay : PathComponent → String
  | .rootDir => "/"
  | .normal s => s

/-- `PathBuf::display` of a component list: joined with `/`. -/
def pathDisplay (p : List PathComponent) : String :=
  String.intercalate "/" (p.map componentDisplay)

/-! ## Directive renderers (`Replacement::write_compass_to`, `Replacement::write_toc_to`) -/

/-- The list line the TOC renderer writes for one child chapter: a link
item when the child has a source path (target path made relative to the
current chapter's source path), a plain item otherwise. -/
def chapterChildLine (chapterPath : List String) (child : Chapter) : String :=
  match child.sourcePath with
  | some path =>
    "- [" ++ (child.name ++ ("](" ++ (pathDisplay (relative_to chapterPath path) ++ ")\n")))
  | none => "- " ++ (child.name ++ "\n")

/-- The chapter children among a chapter's sub-items (the
`filter_map` of `write_toc_to`). -/
def chapterChildren (items : List BookItem) : List Chapter :=
  items.filterMap (fun item =>
    match item with
    | .chapter c => some c
    | _ => none)

/-- Sequential appends of the written lines onto the buffer. -/
def concatLines : List String → String
  | [] => ""
  | s :: rest => s ++ concatLines rest

/-- `Replacement::write_toc_to`: nothing if the chapter has no source
path; otherwise one list line per child chapter, in order. -/
def writeTocTo (ch : Chapter) : String :=
  match ch.sourcePath with
  | none => ""
  | some chapterPath =>
    concatLines ((chapterChildren ch.subItems).map (chapterChildLine chapterPath))

/-- Fixed template text of the compass card grid: the container's
opening line. -/
def gridOpen : String := "&#8288;<div class=\"quote-grid\">\n"

/-- Fixed template text from a card's start up to its link value. -/
def cardA : String :=
  "    <blockquote>\n        <p>\n            <div class=\"diataxis-card-header\">\n                <a href=\""

/-- Fixed template text between a card's link and title values. -/
def cardB : String := "\">"

/-- Fixed template text between a card's title and description values. -/
def cardC : String := "</a>\n            </div>\n            "

/-- Fixed template text from a card's description value to the card's end. -/
def cardD : String := "\n        </p>\n    </blockquote>\n"

/-- Fixed template text of the container's closing line. -/
def gridClose : String := "</div>\n"

/-- `Replacement::write_compass_to`: the dedented `writedoc!` template
with the twelve resolved configuration values interpolated, sections in
source order tutorials, how-to-guides, explanation, reference
(association of the appends follows the order the template is written). -/
def writeCompassTo (cfg : Config) : String :=
  gridOpen ++ (cardA ++ (cfg.tutorialsLink ++ (cardB ++ (cfg.tutorialsTitle ++ (cardC ++
    (cfg.tutorialsDescription ++ (cardD ++ (cardA ++ (cfg.howToGuidesLink ++ (cardB ++
    (cfg.howToGuidesTitle ++ (cardC ++ (cfg.howToGuidesDescription ++ (cardD ++ (cardA ++
    (cfg.explanationLink ++ (cardB ++ (cfg.explanationTitle ++ (cardC ++
    (cfg.explanationDescription ++ (cardD ++ (cardA ++ (cfg.referenceLink ++ (cardB ++
    (cfg.referenceTitle ++ (cardC ++ (cfg.referenceDescription ++ (cardD ++
    (gridClose)))))))))))))))))))))))))))))

/-! ## The directive patterns and the leftmost-longest text substitution -/

/-- `Replacement`: the three directive kinds. -/
inductive Replacement where
  | compass
  | toc
  | malformed
deriving DecidableEq, Repr

/-- `Replacement::pattern` for `Compass`. -/
def compassPattern : String := "\x7b\x7b#diataxis compass\x7d\x7d"

/-- `Replacement::pattern` for `Toc`. -/
def tocPattern : String := "\x7b\x7b#diataxis table-of-contents\x7d\x7d"

/-- `Replacement::pattern` for `Malformed`. -/
def malformedPattern : String := "\x7b\x7b#diataxis"

/-- Character list of the compass pattern. -/
def compassChars : List Char := compassPattern.data

/-- Character list of the table-of-contents pattern. -/
def tocChars : List Char := tocPattern.data

/-- Character list of the malformed marker pattern. -/
def malformedChars : List Char := malformedPattern.data

/-- `Replacement::is_malformed`. -/
def Replacement.is_malformed : Replacement → Bool
  | .malformed => true
  | _ => false

/-- Does `pat` occur as a contiguous substring? -/
def hasSub (pat : List Char) : List Char → Bool
  | [] => List.isPrefixOf pat []
  | c :: cs => List.isPrefixOf pat (c :: cs) || hasSub pat cs

/-- The match stream of the Aho-Corasick scan of
`preprocess_text` (`MatchKind::LeftmostLongest`, `replace_all_with`):
scanning left to right, at each position the longest matching pattern
wins (the three patterns share the prefix so at a given position at
most one of the two well-formed patterns can match, and the malformed
marker is their common proper prefix); a match consumes its span.
Each produced entry is (absolute start position, classified kind). -/
def scanFrom (i : Nat) : List Char → List (Nat × Replacement)
  | [] => []
  | c :: cs =>
    if List.isPrefixOf tocChars (c :: cs) then
      (i, Replacement.toc) :: scanFrom (i + tocChars.length) ((c :: cs).drop tocChars.length)
    else if List.isPrefixOf compassChars (c :: cs) then
      (i, Replacement.compass) ::
        scanFrom (i + compassChars.length) ((c :: cs).drop compassChars.length)
    else if List.isPrefixOf malformedChars (c :: cs) then
      (i, Replacement.malformed) ::
        scanFrom (i + malformedChars.length) ((c :: cs).drop malformedChars.length)
    else
      scanFrom (i + 1) cs
termination_by xs => xs.length
decreasing_by
  all_goals
    simp only [List.length_drop, List.length_cons]
    have h1 : tocChars.length = 31 := rfl
    have h2 : compassChars.length = 21 := rfl
    have h3 : malformedChars.length = 11 := rfl
    omega

/-- The pure content part of `preprocess_text`'s
`replace_all_with`: the compass replacement `rc` and toc replacement
`rt` are constant for one (configuration, chapter) pair; the malformed
marker is re-emitted verbatim; non-matching characters are copied. -/
def replaceAll (rc rt : List Char) : List Char → List Char
  | [] => []
  | c :: cs =>
    if List.isPrefixOf tocChars (c :: cs) then
      rt ++ replaceAll rc rt ((c :: cs).drop tocChars.length)
    else if List.isPrefixOf compassChars (c :: cs) then
      rc ++ replaceAll rc rt ((c :: cs).drop compassChars.length)
    else if List.isPrefixOf malformedChars (c :: cs) then
      malformedChars ++ replaceAll rc rt ((c :: cs).drop malformedChars.length)
    else
      c :: replaceAll rc rt cs
termination_by xs => xs.length
decreasing_by
  all_goals
    simp only [List.length_drop, List.length_cons]
    have h1 : tocChars.length = 31 := rfl
    have h2 : compassChars.length = 21 := rfl
    have h3 : malformedChars.length = 11 := rfl
    omega

/-- The diagnostic `preprocess_text` prints for a malformed match, with
the chapter's source path displayed. -/
def warnMsg (sourcePathDisplay : String) : String :=
  "Warning: malformed `\x7b\x7b#diataxis ...\x7d\x7d` expression in " ++ sourcePathDisplay

/-- Full model of `preprocess_text`'s `replace_all_with` closure:
output text plus the emitted diagnostics, in order; `none` models the
`expect` panic when a malformed match is found in a chapter without a
source path ("internal error: draft chapter has content"). -/
def replaceAllWarn (cfg : Config) (ch : Chapter) : List Char → Option (List Char × List String)
  | [] => some ([], [])
  | c :: cs =>
    if List.isPrefixOf tocChars (c :: cs) then
      (replaceAllWarn cfg ch ((c :: cs).drop tocChars.length)).map
        (fun ow => ((writeTocTo ch).data ++ ow.1, ow.2))
    else if List.isPrefixOf compassChars (c :: cs) then
      (replaceAllWarn cfg ch ((c :: cs).drop compassChars.length)).map
        (fun ow => ((writeCompassTo cfg).data ++ ow.1, ow.2))
    else if List.isPrefixOf malformedChars (c :: cs) then
      match ch.sourcePath with
      | none => none
      | some p =>
        (replaceAllWarn cfg ch ((c :: cs).drop malformedChars.length)).map
          (fun ow => (malformedChars ++ ow.1, warnMsg (displayPath p) :: ow.2))
    else
      (replaceAllWarn cfg ch cs).map (fun ow => (c :: ow.1, ow.2))
termination_by xs => xs.length
decreasing_by
  all_goals
    simp only [List.length_drop, List.length_cons]
    have h1 : tocChars.length = 31 := rfl
    have h2 : compassChars.length = 21 := rfl
    have h3 : malformedChars.length = 11 := rfl
    omega

/-- `DiataxisPreprocessor::preprocess_text`: substituted text plus
diagnostics (`none` for the draft-chapter panic). -/
def preprocess_text (cfg : Config) (ch : Chapter) (text : String) :
    Option (String × List String) :=
  (replaceAllWarn cfg ch text.data).map (fun ow => (String.mk ow.1, ow.2))

/-! ## The chapter rewrite at the markdown event level

`preprocess_chapter` parses the content with `pulldown_cmark::Parser`,
maps `Event::Text` through `preprocess_text` leaving every other event
untouched, and reserializes with `pulldown_cmark_to_cmark::cmark`.  The
parser and serializer are external crates; the embedding models the
repository-owned part, the event mapping. -/

/-- Shallow model of `pulldown_cmark::Event`: the rewrite only
distinguishes `Text` events from everything else; a few non-text shapes
are kept concrete. -/
inductive MdEvent where
  | text (s : String)
  | code (s : String)
  | html (s : String)
  | startTag (tag : String)
  | endTag (tag : String)
  | softBreak
  | hardBreak
  | rule
deriving DecidableEq, Repr

/-- The event mapping of `preprocess_chapter`: `Event::Text` is passed
through `preprocess_text`, every other event is returned unchanged
(`none` propagates the draft-chapter panic). -/
def preprocessEvents (cfg : Config) (ch : Chapter) (events : List MdEvent) :
    Option (List MdEvent) :=
  events.mapM (fun e =>
    match e with
    | .text s => (preprocess_text cfg ch s).map (fun ow => MdEvent.text ow.1)
    | e => some e)

/-- Is an event a text event (the only kind the rewrite touches)? -/
def MdEvent.isText : MdEvent → Bool
  | .text _ => true
  | _ => false

/-! ## Spec-side definitions

The following definitions restate, in the spec's words, properties the
theorems below compare against the source-derived definitions above. -/

/-- Spec-side (claim C3's words): the length of the longest common
component prefix of two paths. -/
def commonLen : List String → List String → Nat
  | s :: ss, t :: ts => if t = s then commonLen ss ts + 1 else 0
  | _, _ => 0

/-- Spec-side (claim C2's words): enumerate the direct children in tree
order; a child chapter with a source path yields a link list item with
the path relative to the current chapter's source path, a draft child
chapter yields a plain list item, a non-chapter item yields nothing. -/
def tocLinesSpec (chapterPath : List String) : List BookItem → String
  | [] => ""
  | .chapter c :: rest =>
    (match c.sourcePath with
     | some path =>
       "- [" ++ (c.name ++ ("](" ++ (pathDisplay (relative_to chapterPath path) ++ ")\n")))
     | none => "- " ++ (c.name ++ "\n")) ++ tocLinesSpec chapterPath rest
  | .separator :: rest => tocLinesSpec chapterPath rest
  | .partTitle _ :: rest => tocLinesSpec chapterPath rest

/-- Spec-side (claim C7's words): one compass card, a header hyperlink
from the section's link to its title followed by the description. -/
def card (link title description : String) : String :=
  cardA ++ link ++ cardB ++ title ++ cardC ++ description ++ cardD

/-- Is a present field of the table a string (or absent)?  Mirrors the
shape check of `SectionConfig::new` for one field. -/
def fieldShapeOk (t : TomlTable) (key : String) : Bool :=
  match tableGet t key with
  | none => true
  | some v => v.asStr.isSome

/-- Is a present section of the `compass` table a table whose present
fields are strings (or absent)? -/
def sectionShapeOk (compassTable : TomlTable) (sectionName : String) : Bool :=
  match tableGet compassTable sectionName with
  | none => true
  | some v =>
    match v.asTable with
    | none => false
    | some st =>
      fieldShapeOk st "title" && fieldShapeOk st "description" && fieldShapeOk st "link"

/-- Is the raw configuration table well shaped: `compass` absent, or a
table whose present sections are all well shaped? -/
def configShapeOk (raw : TomlTable) : Bool :=
  match tableGet raw "compass" with
  | none => true
  | some v =>
    match v.asTable with
    | none => false
    | some ct =>
      sectionShapeOk ct "tutorials" && sectionShapeOk ct "how-to-guides" &&
        sectionShapeOk ct "explanation" && sectionShapeOk ct "reference"

/-- A string contains no occurrence of the directive marker. -/
def markerFree (s : String) : Prop :=
  hasSub malformedChars s.data = false

/-- All twelve resolved configuration strings are marker free. -/
def cfgMarkerFree (cfg : Config) : Prop :=
  markerFree cfg.tutorialsLink ∧ markerFree cfg.tutorialsTitle ∧
  markerFree cfg.tutorialsDescription ∧
  markerFree cfg.howToGuidesLink ∧ markerFree cfg.howToGuidesTitle ∧
  markerFree cfg.howToGuidesDescription ∧
  markerFree cfg.explanationLink ∧ markerFree cfg.explanationTitle ∧
  markerFree cfg.explanationDescription ∧
  markerFree cfg.referenceLink ∧ markerFree cfg.referenceTitle ∧
  markerFree cfg.referenceDescription

/-- The displayed relative link of a child chapter (empty for a draft
child). -/
def childLinkDisplay (chapterPath : List String) (c : Chapter) : String :=
  match c.sourcePath with
  | some path => pathDisplay (relative_to chapterPath path)
  | none => ""

/-- A child chapter's name and displayed relative link are marker free. -/
def childEntryMarkerFree (chapterPath : List String) (c : Chapter) : Prop :=
  markerFree c.name ∧ markerFree (childLinkDisplay chapterPath c)

/-- Does the pattern occur starting at position `i`? -/
def occursAt (pat : List Char) (i : Nat) (xs : List Char) : Prop :=
  List.isPrefixOf pat (xs.drop i) = true

/-- The boundary conditions on the two replacement texts under which
re-running the substitution on its own output is the identity: the
compass replacement starts with `&`, the TOC replacement is empty or a
`- `-headed block ending in a newline, neither contains an occurrence
of a well-formed directive token, and no nonempty proper prefix of a
well-formed token is a suffix of either replacement. -/
structure ReplConds (rc rt : List Char) : Prop where
  rc_head : rc.head? = some '&'
  rc_noOcc_c : hasSub compassChars rc = false
  rc_noOcc_t : hasSub tocChars rc = false
  rc_take_c : ∀ k, 0 < k → k < compassChars.length → ¬ (compassChars.take k <:+ rc)
  rc_take_t : ∀ k, 0 < k → k < tocChars.length → ¬ (tocChars.take k <:+ rc)
  rt_shape : rt = [] ∨ ((∃ z, rt = '-' :: ' ' :: z) ∧ rt.getLast? = some '\n')
  rt_noOcc_c : hasSub compassChars rt = false
  rt_noOcc_t : hasSub tocChars rt = false
  rt_take_c : ∀ k, 0 < k → k < compassChars.length → ¬ (compassChars.take k <:+ rt)
  rt_take_t : ∀ k, 0 < k → k < tocChars.length → ¬ (tocChars.take k <:+ rt)

/-! # Theorems -/

/-! ## Generic list plumbing -/

theorem zip_append_right_irrel {α β : Type} :
    ∀ (xs : List α) (ys zs : List β), xs.length ≤ ys.length →
      xs.zip (ys ++ zs) = xs.zip ys := by
  intro xs
  induction xs with
  | nil => intro ys zs _; simp
  | cons x xs ih =>
    intro ys zs h
    cases ys with
    | nil => simp at h
    | cons y ys =>
      simp only [List.cons_append, List.zip_cons_cons, List.cons.injEq, true_and]
      exact ih ys zs (by simpa using h)

theorem takeWhile_append_all {α : Type} (p : α → Bool) :
    ∀ (xs ys : List α), (∀ x ∈ xs, p x = true) →
      (xs ++ ys).takeWhile p = xs ++ ys.takeWhile p := by
  intro xs
  induction xs with
  | nil => simp
  | cons x xs ih =>
    intro ys h
    have hx : p x = true := h x (by simp)
    simp only [List.cons_append, List.takeWhile_cons, hx, if_true]
    rw [ih ys (fun a ha => h a (by simp [ha]))]

theorem dropWhile_append_all {α : Type} (p : α → Bool) :
    ∀ (xs ys : List α), (∀ x ∈ xs, p x = true) →
      (xs ++ ys).dropWhile p = ys.dropWhile p := by
  intro xs
  induction xs with
  | nil => simp
  | cons x xs ih =>
    intro ys h
    have hx : p x = true := h x (by simp)
    simp only [List.cons_append, List.dropWhile_cons, hx, if_true]
    exact ih ys (fun a ha => h a (by simp [ha]))

/-! ## C3: the relative path resolver -/

theorem relative_to_nil_source (target : List String) :
    relative_to [] target = target.map PathComponent.normal := by
  cases target with
  | nil => rfl
  | cons t ts =>
    unfold relative_to
    have hbeq : (PathComponent.normal t == PathComponent.rootDir) = false := by
      simp [beq_eq_false_iff_ne]
    simp only [List.map_nil, List.nil_append, List.map_cons, List.length_cons,
      List.replicate_succ, List.zip_cons_cons, List.dropWhile_cons, hbeq,
      Bool.false_eq_true, if_false, List.cons.injEq, true_and]
    exact List.map_fst_zip _ _ (by simp)

theorem relative_to_nil_target (source : List String) :
    relative_to source [] = [] := by
  unfold relative_to
  simp

theorem relative_to_cons_eq (x : String) (ss ts : List String) :
    relative_to (x :: ss) (x :: ts) = relative_to ss ts := by
  unfold relative_to
  simp only [List.map_cons, List.length_cons, List.cons_append, List.zip_cons_cons]
  rw [List.dropWhile_cons]
  simp only [beq_self_eq_true, if_true]
  rw [List.replicate_succ' ts.length PathComponent.rootDir, ← List.append_assoc]
  rw [zip_append_right_irrel _ _ _ (by simp)]

theorem relative_to_cons_ne (x y : String) (ss ts : List String) (h : y ≠ x) :
    relative_to (x :: ss) (y :: ts) = (y :: ts).map PathComponent.normal := by
  unfold relative_to
  have hbeq : (PathComponent.normal y == PathComponent.normal x) = false := by
    simp [beq_eq_false_iff_ne, h]
  simp only [List.map_cons, List.length_cons, List.cons_append, List.zip_cons_cons,
    List.dropWhile_cons, hbeq, Bool.false_eq_true, if_false, List.cons.injEq, true_and]
  exact List.map_fst_zip _ _ (by simp; omega)

/-- C3: for all source and target paths, `relative_to` returns the
target's components with the longest common component prefix of target
and source removed; in particular `relative_to "a/README.md"
"a/b/c.md" = "b/c.md"`.  The function is total (hence pure,
deterministic, with no failure mode). -/
theorem relative_to_spec :
    (∀ source target, relative_to source target
        = (target.drop (commonLen source target)).map PathComponent.normal) ∧
    relative_to ["a", "README.md"] ["a", "b", "c.md"]
        = [PathComponent.normal "b", PathComponent.normal "c.md"] ∧
    pathDisplay (relative_to ["a", "README.md"] ["a", "b", "c.md"]) = "b/c.md" := by
  refine ⟨?_, by decide, by decide⟩
  intro source
  induction source with
  | nil =>
    intro target
    rw [relative_to_nil_source]
    rfl
  | cons x ss ih =>
    intro target
    cases target with
    | nil => rw [relative_to_nil_target]; rfl
    | cons y ts =>
      by_cases hxy : y = x
      · subst hxy
        rw [relative_to_cons_eq, ih ts]
        simp [commonLen]
      · rw [relative_to_cons_ne x y ss ts hxy]
        simp [commonLen, hxy]

/-! ## C2: the table-of-contents rendering -/

theorem toc_lines_eq (chapterPath : List String) :
    ∀ items : List BookItem,
      concatLines ((chapterChildren items).map (chapterChildLine chapterPath))
        = tocLinesSpec chapterPath items := by
  intro items
  induction items with
  | nil => rfl
  | cons item rest ih =>
    cases item with
    | chapter c =>
      simp only [chapterChildren, List.filterMap_cons] at *
      simp only [List.map_cons, concatLines, tocLinesSpec]
      rw [ih]
      cases hsp : c.sourcePath <;> simp [chapterChildLine, hsp]
    | separator =>
      simp only [chapterChildren, List.filterMap_cons] at *
      simpa [tocLinesSpec] using ih
    | partTitle t =>
      simp only [chapterChildren, List.filterMap_cons] at *
      simpa [tocLinesSpec] using ih

/-- C2: for a chapter with a source path the TOC replacement lists
exactly the chapter's direct child chapters in tree order — a child
with a source path as a `- [name](relative-path)` link line with the
path relative to the parent's source path, a draft child as a plain
`- name` line, and non-chapter children contributing nothing — and for
a chapter without a source path the replacement is empty. -/
theorem toc_rendering_spec (ch : Chapter) :
    (ch.sourcePath = none → writeTocTo ch = "") ∧
    ∀ chapterPath, ch.sourcePath = some chapterPath →
      writeTocTo ch = tocLinesSpec chapterPath ch.subItems := by
  constructor
  · intro h
    unfold writeTocTo
    rw [h]
  · intro chapterPath h
    unfold writeTocTo
    rw [h]
    exact toc_lines_eq chapterPath ch.subItems

/-- Witness for C2 at a concrete chapter: a linked child, a separator
and a draft child. -/
theorem toc_rendering_spec_witness :
    writeTocTo (Chapter.mk "Ch" "" (some ["a", "README.md"])
        [BookItem.chapter (Chapter.mk "X" "" (some ["a", "b", "c.md"]) []),
         BookItem.separator,
         BookItem.chapter (Chapter.mk "D" "" none [])])
      = tocLinesSpec ["a", "README.md"]
        [BookItem.chapter (Chapter.mk "X" "" (some ["a", "b", "c.md"]) []),
         BookItem.separator,
         BookItem.chapter (Chapter.mk "D" "" none [])] :=
  (toc_rendering_spec _).2 ["a", "README.md"] rfl

/-! ## Step equations for the scanner functions -/

theorem replaceAll_nil (rc rt : List Char) : replaceAll rc rt [] = [] := by
  rw [replaceAll]

theorem replaceAll_toc (rc rt : List Char) (xs : List Char)
    (h1 : List.isPrefixOf tocChars xs = true) :
    replaceAll rc rt xs = rt ++ replaceAll rc rt (xs.drop tocChars.length) := by
  match xs with
  | [] => exact absurd h1 (by decide)
  | c :: cs =>
    rw [replaceAll]
    simp [h1]

theorem replaceAll_compass (rc rt : List Char) (xs : List Char)
    (h1 : List.isPrefixOf tocChars xs = false)
    (h2 : List.isPrefixOf compassChars xs = true) :
    replaceAll rc rt xs = rc ++ replaceAll rc rt (xs.drop compassChars.length) := by
  match xs with
  | [] => exact absurd h2 (by decide)
  | c :: cs =>
    rw [replaceAll]
    simp [h1, h2]

theorem replaceAll_malformed (rc rt : List Char) (xs : List Char)
    (h1 : List.isPrefixOf tocChars xs = false)
    (h2 : List.isPrefixOf compassChars xs = false)
    (h3 : List.isPrefixOf malformedChars xs = true) :
    replaceAll rc rt xs
      = malformedChars ++ replaceAll rc rt (xs.drop malformedChars.length) := by
  match xs with
  | [] => exact absurd h3 (by decide)
  | c :: cs =>
    rw [replaceAll]
    simp [h1, h2, h3]

theorem replaceAll_copy (rc rt : List Char) (c : Char) (cs : List Char)
    (h1 : List.isPrefixOf tocChars (c :: cs) = false)
    (h2 : List.isPrefixOf compassChars (c :: cs) = false)
    (h3 : List.isPrefixOf malformedChars (c :: cs) = false) :
    replaceAll rc rt (c :: cs) = c :: replaceAll rc rt cs := by
  rw [replaceAll]
  simp [h1, h2, h3]

theorem replaceAllWarn_nil (cfg : Config) (ch : Chapter) :
    replaceAllWarn cfg ch [] = some ([], []) := by
  rw [replaceAllWarn]

theorem replaceAllWarn_toc (cfg : Config) (ch : Chapter) (xs : List Char)
    (h1 : List.isPrefixOf tocChars xs = true) :
    replaceAllWarn cfg ch xs
      = (replaceAllWarn cfg ch (xs.drop tocChars.length)).map
          (fun ow => ((writeTocTo ch).data ++ ow.1, ow.2)) := by
  match xs with
  | [] => exact absurd h1 (by decide)
  | c :: cs =>
    rw [replaceAllWarn]
    simp [h1]

theorem replaceAllWarn_compass (cfg : Config) (ch : Chapter) (xs : List Char)
    (h1 : List.isPrefixOf tocChars xs = false)
    (h2 : List.isPrefixOf compassChars xs = true) :
    replaceAllWarn cfg ch xs
      = (replaceAllWarn cfg ch (xs.drop compassChars.length)).map
          (fun ow => ((writeCompassTo cfg).data ++ ow.1, ow.2)) := by
  match xs with
  | [] => exact absurd h2 (by decide)
  | c :: cs =>
    rw [replaceAllWarn]
    simp [h1, h2]

theorem replaceAllWarn_malformed_draft (cfg : Config) (ch : Chapter) (xs : List Char)
    (h1 : List.isPrefixOf tocChars xs = false)
    (h2 : List.isPrefixOf compassChars xs = false)
    (h3 : List.isPrefixOf malformedChars xs = true)
    (hd : ch.sourcePath = none) :
    replaceAllWarn cfg ch xs = none := by
  match xs with
  | [] => exact absurd h3 (by decide)
  | c :: cs =>
    rw [replaceAllWarn]
    simp [h1, h2, h3, hd]

theorem replaceAllWarn_malformed (cfg : Config) (ch : Chapter) (xs : List Char)
    (p : List String)
    (h1 : List.isPrefixOf tocChars xs = false)
    (h2 : List.isPrefixOf compassChars xs = false)
    (h3 : List.isPrefixOf malformedChars xs = true)
    (hp : ch.sourcePath = some p) :
    replaceAllWarn cfg ch xs
      = (replaceAllWarn cfg ch (xs.drop malformedChars.length)).map
          (fun ow => (malformedChars ++ ow.1, warnMsg (displayPath p) :: ow.2)) := by
  match xs with
  | [] => exact absurd h3 (by decide)
  | c :: cs =>
    rw [replaceAllWarn]
    simp [h1, h2, h3, hp]

theorem replaceAllWarn_copy (cfg : Config) (ch : Chapter) (c : Char) (cs : List Char)
    (h1 : List.isPrefixOf tocChars (c :: cs) = false)
    (h2 : List.isPrefixOf compassChars (c :: cs) = false)
    (h3 : List.isPrefixOf malformedChars (c :: cs) = false) :
    replaceAllWarn cfg ch (c :: cs)
      = (replaceAllWarn cfg ch cs).map (fun ow => (c :: ow.1, ow.2)) := by
  rw [replaceAllWarn]
  simp [h1, h2, h3]

theorem scanFrom_nil (i : Nat) : scanFrom i [] = [] := by
  rw [scanFrom]

theorem scanFrom_toc (i : Nat) (xs : List Char)
    (h1 : List.isPrefixOf tocChars xs = true) :
    scanFrom i xs
      = (i, Replacement.toc) :: scanFrom (i + tocChars.length) (xs.drop tocChars.length) := by
  match xs with
  | [] => exact absurd h1 (by decide)
  | c :: cs =>
    rw [scanFrom]
    simp [h1]

theorem scanFrom_compass (i : Nat) (xs : List Char)
    (h1 : List.isPrefixOf tocChars xs = false)
    (h2 : List.isPrefixOf compassChars xs = true) :
    scanFrom i xs
      = (i, Replacement.compass)
          :: scanFrom (i + compassChars.length) (xs.drop compassChars.length) := by
  match xs with
  | [] => exact absurd h2 (by decide)
  | c :: cs =>
    rw [scanFrom]
    simp [h1, h2]

theorem scanFrom_malformed (i : Nat) (xs : List Char)
    (h1 : List.isPrefixOf tocChars xs = false)
    (h2 : List.isPrefixOf compassChars xs = false)
    (h3 : List.isPrefixOf malformedChars xs = true) :
    scanFrom i xs
      = (i, Replacement.malformed)
          :: scanFrom (i + malformedChars.length) (xs.drop malformedChars.length) := by
  match xs with
  | [] => exact absurd h3 (by decide)
  | c :: cs =>
    rw [scanFrom]
    simp [h1, h2, h3]

theorem scanFrom_copy (i : Nat) (c : Char) (cs : List Char)
    (h1 : List.isPrefixOf tocChars (c :: cs) = false)
    (h2 : List.isPrefixOf compassChars (c :: cs) = false)
    (h3 : List.isPrefixOf malformedChars (c :: cs) = false) :
    scanFrom i (c :: cs) = scanFrom (i + 1) cs := by
  rw [scanFrom]
  simp [h1, h2, h3]

/-! ## Pattern facts -/

theorem marker_prefix_of_toc (xs : List Char)
    (h : List.isPrefixOf tocChars xs = true) :
    List.isPrefixOf malformedChars xs = true := by
  rw [List.isPrefixOf_iff_prefix] at *
  exact List.IsPrefix.trans (by decide) h

theorem marker_prefix_of_compass (xs : List Char)
    (h : List.isPrefixOf compassChars xs = true) :
    List.isPrefixOf malformedChars xs = true := by
  rw [List.isPrefixOf_iff_prefix] at *
  exact List.IsPrefix.trans (by decide) h

theorem hasSub_cons (pat : List Char) (c : Char) (cs : List Char) :
    hasSub pat (c :: cs) = (List.isPrefixOf pat (c :: cs) || hasSub pat cs) := by
  rfl

theorem hasSub_of_drop (pat : List Char) :
    ∀ (xs : List Char) (n : Nat), hasSub pat (xs.drop n) = true → hasSub pat xs = true := by
  intro xs
  induction xs with
  | nil => intro n h; simpa using h
  | cons c cs ih =>
    intro n h
    cases n with
    | zero => simpa using h
    | succ m =>
      simp only [List.drop_succ_cons] at h
      rw [hasSub_cons]
      rw [ih m h]
      simp

theorem hasSub_of_isPrefixOf (pat : List Char) (xs : List Char)
    (h : List.isPrefixOf pat xs = true) : hasSub pat xs = true := by
  cases xs with
  | nil =>
    unfold hasSub
    exact h
  | cons c cs =>
    rw [hasSub_cons, h]
    simp

/-! ## C10: the substitution is the identity on marker-free text -/

theorem replaceAllWarn_id_of_marker_free (cfg : Config) (ch : Chapter) :
    ∀ xs : List Char, hasSub malformedChars xs = false →
      replaceAllWarn cfg ch xs = some (xs, []) := by
  intro xs
  induction xs using replaceAllWarn.induct cfg ch with
  | case1 => intro _; exact replaceAllWarn_nil cfg ch
  | case2 c cs h1 _ =>
    intro h
    exfalso
    have := hasSub_of_isPrefixOf _ _ (marker_prefix_of_toc _ h1)
    rw [this] at h
    cases h
  | case3 c cs _ h2 _ =>
    intro h
    exfalso
    have := hasSub_of_isPrefixOf _ _ (marker_prefix_of_compass _ h2)
    rw [this] at h
    cases h
  | case4 c cs _ _ h3 _ =>
    intro h
    exfalso
    have := hasSub_of_isPrefixOf _ _ h3
    rw [this] at h
    cases h
  | case5 c cs _ _ h3 _ _ =>
    intro h
    exfalso
    have := hasSub_of_isPrefixOf _ _ h3
    rw [this] at h
    cases h
  | case6 c cs h1 h2 h3 ih =>
    intro h
    rw [hasSub_cons] at h
    have hcs : hasSub malformedChars cs = false := by
      cases hh : hasSub malformedChars cs
      · rfl
      · rw [hh] at h; simp at h
    rw [replaceAllWarn_copy cfg ch c cs (by simp only [Bool.not_eq_true] at h1; exact h1)
      (by simp only [Bool.not_eq_true] at h2; exact h2)
      (by simp only [Bool.not_eq_true] at h3; exact h3)]
    rw [ih hcs]
    rfl

/-- C10: for every text block with no occurrence of the directive
marker, `preprocess_text` returns the text unchanged with no
diagnostics, for every configuration and chapter. -/
theorem no_marker_identity (cfg : Config) (ch : Chapter) (text : String)
    (h : hasSub malformedChars text.data = false) :
    preprocess_text cfg ch text = some (text, []) := by
  unfold preprocess_text
  rw [replaceAllWarn_id_of_marker_free cfg ch text.data h]
  rfl

/-- Witness for C10 at concrete directive-free text. -/
theorem no_marker_identity_witness :
    preprocess_text Config.defaultCfg (Chapter.mk "Ch" "" (some ["c.md"]) [])
        "# Heading, no directives here"
      = some ("# Heading, no directives here", []) :=
  no_marker_identity Config.defaultCfg (Chapter.mk "Ch" "" (some ["c.md"]) [])
    "# Heading, no directives here" (by decide)

/-! ## C7: the default compass rendering -/

set_option maxRecDepth 8000

/-- C7: with no configuration overrides the compass replacement is
exactly four card blocks, in order tutorials, how-to-guides,
explanation, reference, each a header hyperlink from the section's
default link to its default title followed by the section's default
description; and the compass directive text itself rewrites to exactly
this replacement. -/
theorem compass_default_rendering :
    writeCompassTo Config.defaultCfg
      = gridOpen
        ++ card "./tutorials/index.html" "Tutorials" "Hands-on lessons"
        ++ card "./how-to/index.html" "How-to guides"
             "Step-by-step instructions for common tasks"
        ++ card "./explanations/index.html" "Explanation"
             "Long-form discussion of key topics"
        ++ card "./reference-materials/index.html" "Reference" "Technical information"
        ++ gridClose
    ∧ ∀ rc rt : List Char, replaceAll rc rt compassChars = rc := by
  constructor
  · rfl
  · intro rc rt
    rw [replaceAll_compass rc rt compassChars (by decide) (by decide)]
    rw [show compassChars.drop compassChars.length = [] from List.drop_length compassChars]
    rw [replaceAll_nil]
    simp

/-! ## C4: configuration shape errors -/

theorem readStrField_error (t : TomlTable) (key msg : String) (v : TomlValue)
    (h : tableGet t key = some v) (hv : v.asStr = none) :
    readStrField t key msg = Except.error msg := by
  unfold readStrField
  simp [h, hv]

theorem readStrField_shape (t : TomlTable) (key msg : String) :
    (fieldShapeOk t key = true → ∃ o, readStrField t key msg = Except.ok o) ∧
    (fieldShapeOk t key = false → readStrField t key msg = Except.error msg) := by
  unfold readStrField fieldShapeOk
  cases hg : tableGet t key with
  | none => simp
  | some v =>
    cases hv : v.asStr with
    | none => simp [hv]
    | some s => simp [hv]

theorem sectionConfigNew_ok_iff (st : TomlTable) :
    (∃ sc, SectionConfig.new st = Except.ok sc)
      ↔ (fieldShapeOk st "title" && fieldShapeOk st "description"
          && fieldShapeOk st "link") = true := by
  unfold SectionConfig.new
  cases hft : fieldShapeOk st "title"
  · rw [(readStrField_shape st "title" "`title` field must be a string").2 hft]
    simp [hft]
  · obtain ⟨o1, ho1⟩ := (readStrField_shape st "title" "`title` field must be a string").1 hft
    rw [ho1]
    cases hfd : fieldShapeOk st "description"
    · rw [(readStrField_shape st "description" "`description` field must be a string").2 hfd]
      simp [hft, hfd]
    · obtain ⟨o2, ho2⟩ :=
        (readStrField_shape st "description" "`description` field must be a string").1 hfd
      rw [ho2]
      cases hfl : fieldShapeOk st "link"
      · rw [(readStrField_shape st "link" "`link` field must be a string").2 hfl]
        simp [hft, hfd, hfl]
      · obtain ⟨o3, ho3⟩ := (readStrField_shape st "link" "`link` field must be a string").1 hfl
        rw [ho3]
        simp [hft, hfd, hfl]

theorem sectionOverrides_no_compass (raw : TomlTable) (s : String)
    (h : tableGet raw "compass" = none) :
    sectionOverrides raw s = Except.ok SectionConfig.defaultCfg := by
  unfold sectionOverrides
  rw [h]

theorem sectionOverrides_compass_not_table (raw : TomlTable) (s : String) (v : TomlValue)
    (h : tableGet raw "compass" = some v) (hv : v.asTable = none) :
    sectionOverrides raw s = Except.error "`compass` field must be a table" := by
  unfold sectionOverrides
  simp [h, hv]

theorem sectionOverrides_section_not_table (raw : TomlTable) (s : String)
    (ct : TomlTable) (v : TomlValue)
    (h : tableGet raw "compass" = some (TomlValue.table ct))
    (hs : tableGet ct s = some v) (hv : v.asTable = none) :
    sectionOverrides raw s
      = Except.error ("`compass." ++ s ++ "` field must be a table") := by
  unfold sectionOverrides
  have hct : (TomlValue.table ct).asTable = some ct := rfl
  simp [h, hct, hs, hv]

theorem sectionOverrides_ok_iff (raw : TomlTable) (s : String) (ct : TomlTable)
    (h : tableGet raw "compass" = some (TomlValue.table ct)) :
    (∃ sc, sectionOverrides raw s = Except.ok sc) ↔ sectionShapeOk ct s = true := by
  unfold sectionOverrides sectionShapeOk
  have hct : (TomlValue.table ct).asTable = some ct := rfl
  simp only [h, hct]
  cases hs : tableGet ct s with
  | none => simp
  | some v =>
    cases hv : v.asTable with
    | none => simp [hv]
    | some st =>
      simp only [hv]
      rw [← sectionConfigNew_ok_iff st]
      cases hsc : SectionConfig.new st with
      | ok sc => simp [hsc]
      | error e => simp [hsc]

/-- C4: configuration resolution returns an `ok` value exactly when
every present field has the declared shape (so absent fields never
error), and a wrongly shaped present field yields an error naming the
failing section and field: a non-table `compass` value, a non-table
section value, and a non-string `title` each produce their named
error. -/
theorem config_shape_errors :
    (∀ raw, (∃ c, Config.new raw = Except.ok c) ↔ configShapeOk raw = true) ∧
    (∀ raw v, tableGet raw "compass" = some v → v.asTable = none →
        Config.new raw = Except.error "`compass` field must be a table") ∧
    (∀ st v, tableGet st "title" = some v → v.asStr = none →
        SectionConfig.new st = Except.error "`title` field must be a string") ∧
    (∀ ct v, tableGet ct "tutorials" = some v → v.asTable = none →
        Config.new [("compass", TomlValue.table ct)]
          = Except.error "`compass.tutorials` field must be a table") := by
  refine ⟨?_, ?_, ?_, ?_⟩
  · intro raw
    unfold Config.new configShapeOk
    cases hc : tableGet raw "compass" with
    | none =>
      rw [sectionOverrides_no_compass raw "tutorials" hc,
        sectionOverrides_no_compass raw "how-to-guides" hc,
        sectionOverrides_no_compass raw "explanation" hc,
        sectionOverrides_no_compass raw "reference" hc]
      simp
    | some v =>
      cases hv : v.asTable with
      | none =>
        rw [sectionOverrides_compass_not_table raw "tutorials" v hc hv]
        simp [hv]
      | some ct =>
        have hct : tableGet raw "compass" = some (TomlValue.table ct) := by
          cases v with
          | table kvs => cases hv; exact hc
          | str s => cases hv
          | int n => cases hv
          | boolean b => cases hv
          | array vs => cases hv
        simp only [hv]
        cases hs1 : sectionShapeOk ct "tutorials" with
        | false =>
          have hno := (sectionOverrides_ok_iff raw "tutorials" ct hct).not.mpr (by simp [hs1])
          cases ho : sectionOverrides raw "tutorials" with
          | ok sc => exact absurd ⟨sc, rfl⟩ (ho ▸ hno)
          | error e => simp [hs1]
        | true =>
          obtain ⟨sc1, ho1⟩ := (sectionOverrides_ok_iff raw "tutorials" ct hct).mpr hs1
          rw [ho1]
          cases hs2 : sectionShapeOk ct "how-to-guides" with
          | false =>
            have hno := (sectionOverrides_ok_iff raw "how-to-guides" ct hct).not.mpr
              (by simp [hs2])
            cases ho : sectionOverrides raw "how-to-guides" with
            | ok sc => exact absurd ⟨sc, rfl⟩ (ho ▸ hno)
            | error e => simp [hs1, hs2]
          | true =>
            obtain ⟨sc2, ho2⟩ := (sectionOverrides_ok_iff raw "how-to-guides" ct hct).mpr hs2
            rw [ho2]
            cases hs3 : sectionShapeOk ct "explanation" with
            | false =>
              have hno := (sectionOverrides_ok_iff raw "explanation" ct hct).not.mpr
                (by simp [hs3])
              cases ho : sectionOverrides raw "explanation" with
              | ok sc => exact absurd ⟨sc, rfl⟩ (ho ▸ hno)
              | error e => simp [hs1, hs2, hs3]
            | true =>
              obtain ⟨sc3, ho3⟩ := (sectionOverrides_ok_iff raw "explanation" ct hct).mpr hs3
              rw [ho3]
              cases hs4 : sectionShapeOk ct "reference" with
              | false =>
                have hno := (sectionOverrides_ok_iff raw "reference" ct hct).not.mpr
                  (by simp [hs4])
                cases ho : sectionOverrides raw "reference" with
                | ok sc => exact absurd ⟨sc, rfl⟩ (ho ▸ hno)
                | error e => simp [hs1, hs2, hs3, hs4]
              | true =>
                obtain ⟨sc4, ho4⟩ := (sectionOverrides_ok_iff raw "reference" ct hct).mpr hs4
                rw [ho4]
                simp [hs1, hs2, hs3, hs4]
  · intro raw v hc hv
    unfold Config.new
    rw [sectionOverrides_compass_not_table raw "tutorials" v hc hv]
  · intro st v ht hv
    unfold SectionConfig.new
    rw [readStrField_error st "title" "`title` field must be a string" v ht hv]
  · intro ct v ht hv
    unfold Config.new
    rw [sectionOverrides_section_not_table [("compass", TomlValue.table ct)] "tutorials" ct v
      (by rfl) ht hv]
    rfl

/-- Witness for C4: a concrete malformed and a concrete well-shaped
configuration. -/
theorem config_shape_errors_witness :
    Config.new [("compass", TomlValue.int 3)]
        = Except.error "`compass` field must be a table"
    ∧ (∃ c, Config.new [("compass",
        TomlValue.table [("tutorials", TomlValue.table [("title", TomlValue.str "T")])])]
          = Except.ok c) :=
  ⟨config_shape_errors.2.1 [("compass", TomlValue.int 3)] (TomlValue.int 3) rfl rfl,
   (config_shape_errors.1 [("compass",
        TomlValue.table [("tutorials", TomlValue.table [("title", TomlValue.str "T")])])]).mpr
     (by decide)⟩

/-! ## C8: malformed directives pass through with a diagnostic -/

theorem replaceAllWarn_total (cfg : Config) (ch : Chapter) (p : List String)
    (hp : ch.sourcePath = some p) :
    ∀ xs : List Char, (replaceAllWarn cfg ch xs).isSome = true := by
  intro xs
  induction xs using replaceAllWarn.induct cfg ch with
  | case1 => rw [replaceAllWarn_nil cfg ch]; rfl
  | case2 c cs h1 ih =>
    rw [replaceAllWarn_toc cfg ch _ h1]
    exact by simpa using ih
  | case3 c cs h1 h2 ih =>
    rw [replaceAllWarn_compass cfg ch _ (by simp only [Bool.not_eq_true] at h1; exact h1) h2]
    exact by simpa using ih
  | case4 c cs h1 h2 h3 hd =>
    rw [hd] at hp
    cases hp
  | case5 c cs h1 h2 h3 chapterPath hsp ih =>
    rw [replaceAllWarn_malformed cfg ch _ chapterPath
      (by simp only [Bool.not_eq_true] at h1; exact h1)
      (by simp only [Bool.not_eq_true] at h2; exact h2) h3 hsp]
    exact by simpa using ih
  | case6 c cs h1 h2 h3 ih =>
    rw [replaceAllWarn_copy cfg ch c cs
      (by simp only [Bool.not_eq_true] at h1; exact h1)
      (by simp only [Bool.not_eq_true] at h2; exact h2)
      (by simp only [Bool.not_eq_true] at h3; exact h3)]
    exact by simpa using ih

theorem replaceAllWarn_warnings_eq (cfg : Config) (ch : Chapter) (p : List String)
    (hp : ch.sourcePath = some p) :
    ∀ xs out ws, replaceAllWarn cfg ch xs = some (out, ws) →
      ∀ w ∈ ws, w = warnMsg (displayPath p) := by
  intro xs
  induction xs using replaceAllWarn.induct cfg ch with
  | case1 =>
    intro out ws h
    rw [replaceAllWarn_nil cfg ch] at h
    cases h
    simp
  | case2 c cs h1 ih =>
    intro out ws h
    rw [replaceAllWarn_toc cfg ch _ h1] at h
    obtain ⟨⟨out2, ws2⟩, ha, hb⟩ := Option.map_eq_some'.mp h
    have hws : ws2 = ws := congrArg Prod.snd hb
    subst hws
    exact ih out2 ws2 ha
  | case3 c cs h1 h2 ih =>
    intro out ws h
    have h1' : List.isPrefixOf tocChars (c :: cs) = false := by
      simp only [Bool.not_eq_true] at h1; exact h1
    rw [replaceAllWarn_compass cfg ch _ h1' h2] at h
    obtain ⟨⟨out2, ws2⟩, ha, hb⟩ := Option.map_eq_some'.mp h
    have hws : ws2 = ws := congrArg Prod.snd hb
    subst hws
    exact ih out2 ws2 ha
  | case4 c cs h1 h2 h3 hd =>
    rw [hd] at hp
    cases hp
  | case5 c cs h1 h2 h3 chapterPath hsp ih =>
    intro out ws h
    have h1' : List.isPrefixOf tocChars (c :: cs) = false := by
      simp only [Bool.not_eq_true] at h1; exact h1
    have h2' : List.isPrefixOf compassChars (c :: cs) = false := by
      simp only [Bool.not_eq_true] at h2; exact h2
    rw [replaceAllWarn_malformed cfg ch _ chapterPath h1' h2' h3 hsp] at h
    obtain ⟨⟨out2, ws2⟩, ha, hb⟩ := Option.map_eq_some'.mp h
    have hws : warnMsg (displayPath chapterPath) :: ws2 = ws := congrArg Prod.snd hb
    rw [hsp] at hp
    cases hp
    intro w hw
    rw [← hws] at hw
    rcases List.mem_cons.mp hw with hw | hw
    · exact hw
    · exact ih out2 ws2 ha w hw
  | case6 c cs h1 h2 h3 ih =>
    intro out ws h
    have h1' : List.isPrefixOf tocChars (c :: cs) = false := by
      simp only [Bool.not_eq_true] at h1; exact h1
    have h2' : List.isPrefixOf compassChars (c :: cs) = false := by
      simp only [Bool.not_eq_true] at h2; exact h2
    have h3' : List.isPrefixOf malformedChars (c :: cs) = false := by
      simp only [Bool.not_eq_true] at h3; exact h3
    rw [replaceAllWarn_copy cfg ch c cs h1' h2' h3'] at h
    obtain ⟨⟨out2, ws2⟩, ha, hb⟩ := Option.map_eq_some'.mp h
    have hws : ws2 = ws := congrArg Prod.snd hb
    subst hws
    exact ih out2 ws2 ha

theorem scan_malformed_warn (cfg : Config) (ch : Chapter) (p : List String)
    (hp : ch.sourcePath = some p) :
    ∀ xs : List Char, ∀ i pos out ws, (pos, Replacement.malformed) ∈ scanFrom i xs →
      replaceAllWarn cfg ch xs = some (out, ws) → warnMsg (displayPath p) ∈ ws := by
  intro xs
  induction xs using replaceAllWarn.induct cfg ch with
  | case1 =>
    intro i pos out ws hmem _
    rw [scanFrom_nil] at hmem
    cases hmem
  | case2 c cs h1 ih =>
    intro i pos out ws hmem h
    rw [scanFrom_toc i _ h1] at hmem
    rcases List.mem_cons.mp hmem with heq | hmem
    · cases heq
    · rw [replaceAllWarn_toc cfg ch _ h1] at h
      obtain ⟨⟨out2, ws2⟩, ha, hb⟩ := Option.map_eq_some'.mp h
      have hws : ws2 = ws := congrArg Prod.snd hb
      subst hws
      exact ih _ _ out2 ws2 hmem ha
  | case3 c cs h1 h2 ih =>
    intro i pos out ws hmem h
    have h1' : List.isPrefixOf tocChars (c :: cs) = false := by
      simp only [Bool.not_eq_true] at h1; exact h1
    rw [scanFrom_compass i _ h1' h2] at hmem
    rcases List.mem_cons.mp hmem with heq | hmem
    · cases heq
    · rw [replaceAllWarn_compass cfg ch _ h1' h2] at h
      obtain ⟨⟨out2, ws2⟩, ha, hb⟩ := Option.map_eq_some'.mp h
      have hws : ws2 = ws := congrArg Prod.snd hb
      subst hws
      exact ih _ _ out2 ws2 hmem ha
  | case4 c cs h1 h2 h3 hd =>
    rw [hd] at hp
    cases hp
  | case5 c cs h1 h2 h3 chapterPath hsp ih =>
    intro i pos out ws hmem h
    have h1' : List.isPrefixOf tocChars (c :: cs) = false := by
      simp only [Bool.not_eq_true] at h1; exact h1
    have h2' : List.isPrefixOf compassChars (c :: cs) = false := by
      simp only [Bool.not_eq_true] at h2; exact h2
    rw [replaceAllWarn_malformed cfg ch _ chapterPath h1' h2' h3 hsp] at h
    obtain ⟨⟨out2, ws2⟩, ha, hb⟩ := Option.map_eq_some'.mp h
    have hws : warnMsg (displayPath chapterPath) :: ws2 = ws := congrArg Prod.snd hb
    rw [hsp] at hp
    cases hp
    rw [← hws]
    simp
  | case6 c cs h1 h2 h3 ih =>
    intro i pos out ws hmem h
    have h1' : List.isPrefixOf tocChars (c :: cs) = false := by
      simp only [Bool.not_eq_true] at h1; exact h1
    have h2' : List.isPrefixOf compassChars (c :: cs) = false := by
      simp only [Bool.not_eq_true] at h2; exact h2
    have h3' : List.isPrefixOf malformedChars (c :: cs) = false := by
      simp only [Bool.not_eq_true] at h3; exact h3
    rw [scanFrom_copy i c cs h1' h2' h3'] at hmem
    rw [replaceAllWarn_copy cfg ch c cs h1' h2' h3'] at h
    obtain ⟨⟨out2, ws2⟩, ha, hb⟩ := Option.map_eq_some'.mp h
    have hws : ws2 = ws := congrArg Prod.snd hb
    subst hws
    exact ih _ _ out2 ws2 hmem ha

/-- C8: for a chapter with a source path, the rewrite never fails; a
malformed match reproduces the marker text verbatim in the output and
emits one diagnostic; every diagnostic names the chapter's source path;
and whenever the scan classifies a match as malformed, the diagnostic
is emitted. -/
theorem malformed_passthrough (cfg : Config) (ch : Chapter) (p : List String)
    (hp : ch.sourcePath = some p) :
    (∀ text : String, ∃ ow, preprocess_text cfg ch text = some ow) ∧
    (∀ xs : List Char,
        List.isPrefixOf tocChars xs = false →
        List.isPrefixOf compassChars xs = false →
        List.isPrefixOf malformedChars xs = true →
        replaceAllWarn cfg ch xs
          = (replaceAllWarn cfg ch (xs.drop malformedChars.length)).map
              (fun ow => (malformedChars ++ ow.1, warnMsg (displayPath p) :: ow.2))) ∧
    (∀ xs out ws, replaceAllWarn cfg ch xs = some (out, ws) →
        ∀ w ∈ ws, w = warnMsg (displayPath p)) ∧
    (∀ (xs : List Char) (pos : Nat) (out : List Char) (ws : List String),
        (pos, Replacement.malformed) ∈ scanFrom 0 xs →
        replaceAllWarn cfg ch xs = some (out, ws) →
        warnMsg (displayPath p) ∈ ws) := by
  refine ⟨?_, ?_, ?_, ?_⟩
  · intro text
    have hs := replaceAllWarn_total cfg ch p hp text.data
    obtain ⟨ow, how⟩ := Option.isSome_iff_exists.mp hs
    exact ⟨_, by unfold preprocess_text; rw [how]; rfl⟩
  · intro xs h1 h2 h3
    exact replaceAllWarn_malformed cfg ch xs p h1 h2 h3 hp
  · exact replaceAllWarn_warnings_eq cfg ch p hp
  · intro xs pos out ws hmem h
    exact scan_malformed_warn cfg ch p hp xs 0 pos out ws hmem h

/-- Witness for C8 at a concrete chapter and malformed text. -/
theorem malformed_passthrough_witness :
    ∃ ow, preprocess_text Config.defaultCfg (Chapter.mk "Ch" "" (some ["c.md"]) [])
      "see \x7b\x7b#diataxis oops" = some ow :=
  (malformed_passthrough Config.defaultCfg (Chapter.mk "Ch" "" (some ["c.md"]) [])
    ["c.md"] rfl).1 "see \x7b\x7b#diataxis oops"

/-! ## C9: the chapter rewrite preserves the markdown event structure -/

/-- C9: the chapter rewrite maps only text events: the output stream
has the same length, every non-text event (headings, code spans,
emphasis, html, breaks, rules) is returned identically at its position,
and a text event — including one inside a heading — is replaced by the
substitution of its text.  (The markdown parse and reserialization
around this mapping belong to the external `pulldown_cmark` crates;
this settles the repository-owned event transformation.) -/
theorem event_structure_preserved (cfg : Config) (ch : Chapter) :
    ∀ (events out : List MdEvent), preprocessEvents cfg ch events = some out →
      out.length = events.length ∧
      (∀ i e, events.get? i = some e → e.isText = false → out.get? i = some e) ∧
      (∀ i s, events.get? i = some (MdEvent.text s) →
          ∃ ow, preprocess_text cfg ch s = some ow
            ∧ out.get? i = some (MdEvent.text ow.1)) := by
  intro events
  induction events with
  | nil =>
    intro out h
    unfold preprocessEvents at h
    rw [List.mapM_nil] at h
    cases h
    refine ⟨rfl, ?_, ?_⟩
    · intro i e hi
      cases hi
    · intro i s hi
      cases hi
  | cons e es ih =>
    intro out h
    unfold preprocessEvents at h
    rw [List.mapM_cons] at h
    obtain ⟨v, hv, rest⟩ := Option.bind_eq_some.mp h
    obtain ⟨vs, hvs, hout⟩ := Option.bind_eq_some.mp rest
    have hout' : v :: vs = out := by
      cases hout
      rfl
    subst hout'
    have ihr := ih vs (by unfold preprocessEvents; exact hvs)
    refine ⟨by simp [ihr.1], ?_, ?_⟩
    · intro i e' hi hnt
      cases i with
      | zero =>
        rw [List.get?_cons_zero] at hi
        have he : e = e' := by injection hi
        subst he
        have hv' : v = e := by
          cases e with
          | text s => cases hnt
          | code s => exact (Option.some.injEq _ _ ▸ hv).symm
          | html s => exact (Option.some.injEq _ _ ▸ hv).symm
          | startTag t => exact (Option.some.injEq _ _ ▸ hv).symm
          | endTag t => exact (Option.some.injEq _ _ ▸ hv).symm
          | softBreak => exact (Option.some.injEq _ _ ▸ hv).symm
          | hardBreak => exact (Option.some.injEq _ _ ▸ hv).symm
          | rule => exact (Option.some.injEq _ _ ▸ hv).symm
        rw [List.get?_cons_zero, hv']
      | succ j =>
        rw [List.get?_cons_succ] at hi
        rw [List.get?_cons_succ]
        exact ihr.2.1 j e' hi hnt
    · intro i s hi
      cases i with
      | zero =>
        rw [List.get?_cons_zero] at hi
        cases hi
        simp only at hv
        obtain ⟨ow, how, hvw⟩ := Option.map_eq_some'.mp hv
        refine ⟨ow, how, ?_⟩
        rw [List.get?_cons_zero, ← hvw]
      | succ j =>
        rw [List.get?_cons_succ] at hi
        rw [List.get?_cons_succ]
        exact ihr.2.2 j s hi

/-- Witness for C9: a concrete three-event heading stream is rewritten
with the surrounding heading events preserved at their positions. -/
theorem event_structure_preserved_witness :
    ∃ out, preprocessEvents Config.defaultCfg (Chapter.mk "Ch" "" (some ["c.md"]) [])
        [MdEvent.startTag "h1", MdEvent.text "T", MdEvent.endTag "h1"] = some out
      ∧ out.length = 3
      ∧ out.get? 0 = some (MdEvent.startTag "h1")
      ∧ out.get? 2 = some (MdEvent.endTag "h1") := by
  have htext : preprocess_text Config.defaultCfg (Chapter.mk "Ch" "" (some ["c.md"]) []) "T"
      = some ("T", []) := by
    unfold preprocess_text
    rw [replaceAllWarn_id_of_marker_free Config.defaultCfg
      (Chapter.mk "Ch" "" (some ["c.md"]) []) "T".data (by decide)]
    rfl
  have hev : preprocessEvents Config.defaultCfg (Chapter.mk "Ch" "" (some ["c.md"]) [])
      [MdEvent.startTag "h1", MdEvent.text "T", MdEvent.endTag "h1"]
      = some [MdEvent.startTag "h1", MdEvent.text "T", MdEvent.endTag "h1"] := by
    unfold preprocessEvents
    rw [List.mapM_cons, List.mapM_cons, List.mapM_cons, List.mapM_nil]
    simp [htext]
  refine ⟨[MdEvent.startTag "h1", MdEvent.text "T", MdEvent.endTag "h1"], hev, ?_, ?_, ?_⟩
  · exact (event_structure_preserved Config.defaultCfg (Chapter.mk "Ch" "" (some ["c.md"]) [])
      [MdEvent.startTag "h1", MdEvent.text "T", MdEvent.endTag "h1"] _ hev).1
  · exact (event_structure_preserved Config.defaultCfg (Chapter.mk "Ch" "" (some ["c.md"]) [])
      [MdEvent.startTag "h1", MdEvent.text "T", MdEvent.endTag "h1"] _ hev).2.1 0
      (MdEvent.startTag "h1") rfl rfl
  · exact (event_structure_preserved Config.defaultCfg (Chapter.mk "Ch" "" (some ["c.md"]) [])
      [MdEvent.startTag "h1", MdEvent.text "T", MdEvent.endTag "h1"] _ hev).2.1 2
      (MdEvent.endTag "h1") rfl rfl

/-! ## C1: leftmost-longest classification of well-formed directives -/

theorem isPrefixOf_getElem (pat xs : List Char) (h : List.isPrefixOf pat xs = true)
    (j : Nat) (hj : j < pat.length) : xs[j]? = pat[j]? := by
  obtain ⟨t, rfl⟩ := List.isPrefixOf_iff_prefix.mp h
  exact List.getElem?_append_left hj

theorem no_token_inside_match (P tok : List Char)
    (hone : ∀ j, j < P.length → 0 < j → P[j]? = some '\x7b' → j = 1)
    (hhash : P[2]? = some '#')
    (htok0 : tok[0]? = some '\x7b') (htok1 : tok[1]? = some '\x7b')
    (htoklen : 2 ≤ tok.length)
    (xs : List Char) (hP : List.isPrefixOf P xs = true)
    (pos : Nat) (hpos0 : 0 < pos) (hposP : pos < P.length)
    (h : List.isPrefixOf tok (xs.drop pos) = true) : False := by
  have hx0 : xs[pos]? = some '\x7b' := by
    have h0 := isPrefixOf_getElem tok (xs.drop pos) h 0 (by omega)
    rw [List.getElem?_drop, Nat.add_zero] at h0
    rw [h0]
    exact htok0
  have hx1 : xs[pos + 1]? = some '\x7b' := by
    have hh := isPrefixOf_getElem tok (xs.drop pos) h 1 (by omega)
    rw [List.getElem?_drop] at hh
    rw [hh]
    exact htok1
  have hP0 : P[pos]? = some '\x7b' := by
    rw [← isPrefixOf_getElem P xs hP pos hposP]
    exact hx0
  have hpos1 : pos = 1 := hone pos hposP hpos0 hP0
  subst hpos1
  have hlen : 2 < P.length := by
    by_contra hc
    rw [List.getElem?_eq_none (by omega)] at hhash
    cases hhash
  have hx2 : xs[2]? = some '#' := by
    rw [← hhash]
    exact isPrefixOf_getElem P xs hP 2 hlen
  rw [hx2] at hx1
  cases hx1

theorem not_toc_and_compass (xs : List Char)
    (h1 : List.isPrefixOf tocChars xs = true)
    (h2 : List.isPrefixOf compassChars xs = true) : False := by
  have hp := List.prefix_of_prefix_length_le (List.isPrefixOf_iff_prefix.mp h2)
    (List.isPrefixOf_iff_prefix.mp h1) (by decide)
  exact absurd hp (by decide)

theorem scanFrom_pos_ge :
    ∀ (base : Nat) (xs : List Char) (p : Nat) (r : Replacement),
      (p, r) ∈ scanFrom base xs → base ≤ p := by
  intro base xs
  induction base, xs using scanFrom.induct with
  | case1 i =>
    intro p r hmem
    rw [scanFrom_nil] at hmem
    cases hmem
  | case2 i c cs h1 ih =>
    intro p r hmem
    rw [scanFrom_toc i _ h1] at hmem
    rcases List.mem_cons.mp hmem with heq | hmem
    · cases heq; exact le_refl _
    · have := ih p r hmem
      omega
  | case3 i c cs h1 h2 ih =>
    intro p r hmem
    rw [scanFrom_compass i _ (by simp only [Bool.not_eq_true] at h1; exact h1) h2] at hmem
    rcases List.mem_cons.mp hmem with heq | hmem
    · cases heq; exact le_refl _
    · have := ih p r hmem
      omega
  | case4 i c cs h1 h2 h3 ih =>
    intro p r hmem
    rw [scanFrom_malformed i _ (by simp only [Bool.not_eq_true] at h1; exact h1)
      (by simp only [Bool.not_eq_true] at h2; exact h2) h3] at hmem
    rcases List.mem_cons.mp hmem with heq | hmem
    · cases heq; exact le_refl _
    · have := ih p r hmem
      omega
  | case5 i c cs h1 h2 h3 ih =>
    intro p r hmem
    rw [scanFrom_copy i c cs (by simp only [Bool.not_eq_true] at h1; exact h1)
      (by simp only [Bool.not_eq_true] at h2; exact h2)
      (by simp only [Bool.not_eq_true] at h3; exact h3)] at hmem
    have := ih p r hmem
    omega

theorem scan_hits :
    ∀ (base : Nat) (xs : List Char) (pos : Nat),
      (List.isPrefixOf compassChars (xs.drop pos) = true →
        (base + pos, Replacement.compass) ∈ scanFrom base xs) ∧
      (List.isPrefixOf tocChars (xs.drop pos) = true →
        (base + pos, Replacement.toc) ∈ scanFrom base xs) := by
  have hlt : tocChars.length = 31 := rfl
  have hlc : compassChars.length = 21 := rfl
  have hlm : malformedChars.length = 11 := rfl
  intro base xs
  induction base, xs using scanFrom.induct with
  | case1 i =>
    intro pos
    constructor
    · intro h
      rw [List.drop_nil] at h
      exact absurd h (by decide)
    · intro h
      rw [List.drop_nil] at h
      exact absurd h (by decide)
  | case2 i c cs h1 ih =>
    intro pos
    rw [scanFrom_toc i _ h1]
    constructor
    · intro h
      rcases Nat.lt_or_ge pos tocChars.length with hlt1 | hge
      · rcases Nat.eq_zero_or_pos pos with rfl | hpos0
        · rw [List.drop_zero] at h
          exact (not_toc_and_compass _ h1 h).elim
        · exact (no_token_inside_match tocChars compassChars
            (by decide) (by decide) (by decide) (by decide) (by decide)
            _ h1 pos hpos0 hlt1 h).elim
      · have hdrop : (c :: cs).drop pos
            = ((c :: cs).drop tocChars.length).drop (pos - tocChars.length) := by
          rw [List.drop_drop]
          congr 1
          omega
        rw [hdrop] at h
        have hm := (ih (pos - tocChars.length)).1 h
        have he : i + tocChars.length + (pos - tocChars.length) = i + pos := by omega
        rw [he] at hm
        exact List.mem_cons_of_mem _ hm
    · intro h
      rcases Nat.lt_or_ge pos tocChars.length with hlt1 | hge
      · rcases Nat.eq_zero_or_pos pos with rfl | hpos0
        · simp
        · exact (no_token_inside_match tocChars tocChars
            (by decide) (by decide) (by decide) (by decide) (by decide)
            _ h1 pos hpos0 hlt1 h).elim
      · have hdrop : (c :: cs).drop pos
            = ((c :: cs).drop tocChars.length).drop (pos - tocChars.length) := by
          rw [List.drop_drop]
          congr 1
          omega
        rw [hdrop] at h
        have hm := (ih (pos - tocChars.length)).2 h
        have he : i + tocChars.length + (pos - tocChars.length) = i + pos := by omega
        rw [he] at hm
        exact List.mem_cons_of_mem _ hm
  | case3 i c cs h1 h2 ih =>
    intro pos
    have h1' : List.isPrefixOf tocChars (c :: cs) = false := by
      simp only [Bool.not_eq_true] at h1; exact h1
    rw [scanFrom_compass i _ h1' h2]
    constructor
    · intro h
      rcases Nat.lt_or_ge pos compassChars.length with hlt1 | hge
      · rcases Nat.eq_zero_or_pos pos with rfl | hpos0
        · simp
        · exact (no_token_inside_match compassChars compassChars
            (by decide) (by decide) (by decide) (by decide) (by decide)
            _ h2 pos hpos0 hlt1 h).elim
      · have hdrop : (c :: cs).drop pos
            = ((c :: cs).drop compassChars.length).drop (pos - compassChars.length) := by
          rw [List.drop_drop]
          congr 1
          omega
        rw [hdrop] at h
        have hm := (ih (pos - compassChars.length)).1 h
        have he : i + compassChars.length + (pos - compassChars.length) = i + pos := by omega
        rw [he] at hm
        exact List.mem_cons_of_mem _ hm
    · intro h
      rcases Nat.lt_or_ge pos compassChars.length with hlt1 | hge
      · rcases Nat.eq_zero_or_pos pos with rfl | hpos0
        · rw [List.drop_zero] at h
          rw [h] at h1'
          cases h1'
        · exact (no_token_inside_match compassChars tocChars
            (by decide) (by decide) (by decide) (by decide) (by decide)
            _ h2 pos hpos0 hlt1 h).elim
      · have hdrop : (c :: cs).drop pos
            = ((c :: cs).drop compassChars.length).drop (pos - compassChars.length) := by
          rw [List.drop_drop]
          congr 1
          omega
        rw [hdrop] at h
        have hm := (ih (pos - compassChars.length)).2 h
        have he : i + compassChars.length + (pos - compassChars.length) = i + pos := by omega
        rw [he] at hm
        exact List.mem_cons_of_mem _ hm
  | case4 i c cs h1 h2 h3 ih =>
    intro pos
    have h1' : List.isPrefixOf tocChars (c :: cs) = false := by
      simp only [Bool.not_eq_true] at h1; exact h1
    have h2' : List.isPrefixOf compassChars (c :: cs) = false := by
      simp only [Bool.not_eq_true] at h2; exact h2
    rw [scanFrom_malformed i _ h1' h2' h3]
    constructor
    · intro h
      rcases Nat.lt_or_ge pos malformedChars.length with hlt1 | hge
      · rcases Nat.eq_zero_or_pos pos with rfl | hpos0
        · rw [List.drop_zero] at h
          rw [h] at h2'
          cases h2'
        · exact (no_token_inside_match malformedChars compassChars
            (by decide) (by decide) (by decide) (by decide) (by decide)
            _ h3 pos hpos0 hlt1 h).elim
      · have hdrop : (c :: cs).drop pos
            = ((c :: cs).drop malformedChars.length).drop (pos - malformedChars.length) := by
          rw [List.drop_drop]
          congr 1
          omega
        rw [hdrop] at h
        have hm := (ih (pos - malformedChars.length)).1 h
        have he : i + malformedChars.length + (pos - malformedChars.length) = i + pos := by omega
        rw [he] at hm
        exact List.mem_cons_of_mem _ hm
    · intro h
      rcases Nat.lt_or_ge pos malformedChars.length with hlt1 | hge
      · rcases Nat.eq_zero_or_pos pos with rfl | hpos0
        · rw [List.drop_zero] at h
          rw [h] at h1'
          cases h1'
        · exact (no_token_inside_match malformedChars tocChars
            (by decide) (by decide) (by decide) (by decide) (by decide)
            _ h3 pos hpos0 hlt1 h).elim
      · have hdrop : (c :: cs).drop pos
            = ((c :: cs).drop malformedChars.length).drop (pos - malformedChars.length) := by
          rw [List.drop_drop]
          congr 1
          omega
        rw [hdrop] at h
        have hm := (ih (pos - malformedChars.length)).2 h
        have he : i + malformedChars.length + (pos - malformedChars.length) = i + pos := by omega
        rw [he] at hm
        exact List.mem_cons_of_mem _ hm
  | case5 i c cs h1 h2 h3 ih =>
    intro pos
    have h1' : List.isPrefixOf tocChars (c :: cs) = false := by
      simp only [Bool.not_eq_true] at h1; exact h1
    have h2' : List.isPrefixOf compassChars (c :: cs) = false := by
      simp only [Bool.not_eq_true] at h2; exact h2
    have h3' : List.isPrefixOf malformedChars (c :: cs) = false := by
      simp only [Bool.not_eq_true] at h3; exact h3
    rw [scanFrom_copy i c cs h1' h2' h3']
    constructor
    · intro h
      cases pos with
      | zero =>
        rw [List.drop_zero] at h
        rw [h] at h2'
        cases h2'
      | succ m =>
        rw [List.drop_succ_cons] at h
        have hm := (ih m).1 h
        have he : i + 1 + m = i + (m + 1) := by omega
        rw [he] at hm
        exact hm
    · intro h
      cases pos with
      | zero =>
        rw [List.drop_zero] at h
        rw [h] at h1'
        cases h1'
      | succ m =>
        rw [List.drop_succ_cons] at h
        have hm := (ih m).2 h
        have he : i + 1 + m = i + (m + 1) := by omega
        rw [he] at hm
        exact hm

theorem scan_unique :
    ∀ (base : Nat) (xs : List Char) (p : Nat) (r r' : Replacement),
      (p, r) ∈ scanFrom base xs → (p, r') ∈ scanFrom base xs → r = r' := by
  have hlt : tocChars.length = 31 := rfl
  have hlc : compassChars.length = 21 := rfl
  have hlm : malformedChars.length = 11 := rfl
  intro base xs
  induction base, xs using scanFrom.induct with
  | case1 i =>
    intro p r r' hmem _
    rw [scanFrom_nil] at hmem
    cases hmem
  | case2 i c cs h1 ih =>
    intro p r r' hmem hmem'
    rw [scanFrom_toc i _ h1] at hmem hmem'
    rcases List.mem_cons.mp hmem with heq | hmem <;>
      rcases List.mem_cons.mp hmem' with heq' | hmem'
    · cases heq; cases heq'; rfl
    · cases heq
      have := scanFrom_pos_ge _ _ _ _ hmem'
      omega
    · cases heq'
      have := scanFrom_pos_ge _ _ _ _ hmem
      omega
    · exact ih p r r' hmem hmem'
  | case3 i c cs h1 h2 ih =>
    intro p r r' hmem hmem'
    have h1' : List.isPrefixOf tocChars (c :: cs) = false := by
      simp only [Bool.not_eq_true] at h1; exact h1
    rw [scanFrom_compass i _ h1' h2] at hmem hmem'
    rcases List.mem_cons.mp hmem with heq | hmem <;>
      rcases List.mem_cons.mp hmem' with heq' | hmem'
    · cases heq; cases heq'; rfl
    · cases heq
      have := scanFrom_pos_ge _ _ _ _ hmem'
      omega
    · cases heq'
      have := scanFrom_pos_ge _ _ _ _ hmem
      omega
    · exact ih p r r' hmem hmem'
  | case4 i c cs h1 h2 h3 ih =>
    intro p r r' hmem hmem'
    have h1' : List.isPrefixOf tocChars (c :: cs) = false := by
      simp only [Bool.not_eq_true] at h1; exact h1
    have h2' : List.isPrefixOf compassChars (c :: cs) = false := by
      simp only [Bool.not_eq_true] at h2; exact h2
    rw [scanFrom_malformed i _ h1' h2' h3] at hmem hmem'
    rcases List.mem_cons.mp hmem with heq | hmem <;>
      rcases List.mem_cons.mp hmem' with heq' | hmem'
    · cases heq; cases heq'; rfl
    · cases heq
      have := scanFrom_pos_ge _ _ _ _ hmem'
      omega
    · cases heq'
      have := scanFrom_pos_ge _ _ _ _ hmem
      omega
    · exact ih p r r' hmem hmem'
  | case5 i c cs h1 h2 h3 ih =>
    intro p r r' hmem hmem'
    rw [scanFrom_copy i c cs (by simp only [Bool.not_eq_true] at h1; exact h1)
      (by simp only [Bool.not_eq_true] at h2; exact h2)
      (by simp only [Bool.not_eq_true] at h3; exact h3)] at hmem hmem'
    exact ih p r r' hmem hmem'

/-- C1: wherever the text contains the full compass token, the scan
classifies the match at that position as Compass — never as Malformed —
and likewise a full table-of-contents token is classified as
TableOfContents, even though the malformed marker is a textual prefix
of both. -/
theorem compass_never_malformed (text : List Char) (pos : Nat) :
    (occursAt compassChars pos text →
      (pos, Replacement.compass) ∈ scanFrom 0 text
      ∧ (∀ r, (pos, r) ∈ scanFrom 0 text → r = Replacement.compass)
      ∧ (pos, Replacement.malformed) ∉ scanFrom 0 text) ∧
    (occursAt tocChars pos text →
      (pos, Replacement.toc) ∈ scanFrom 0 text
      ∧ (∀ r, (pos, r) ∈ scanFrom 0 text → r = Replacement.toc)
      ∧ (pos, Replacement.malformed) ∉ scanFrom 0 text) := by
  constructor
  · intro h
    have hm := (scan_hits 0 text pos).1 h
    rw [Nat.zero_add] at hm
    refine ⟨hm, ?_, ?_⟩
    · intro r hr
      exact scan_unique 0 text pos r Replacement.compass hr hm
    · intro hbad
      cases scan_unique 0 text pos Replacement.malformed Replacement.compass hbad hm
  · intro h
    have hm := (scan_hits 0 text pos).2 h
    rw [Nat.zero_add] at hm
    refine ⟨hm, ?_, ?_⟩
    · intro r hr
      exact scan_unique 0 text pos r Replacement.toc hr hm
    · intro hbad
      cases scan_unique 0 text pos Replacement.malformed Replacement.toc hbad hm

/-- Witness for C1 at a concrete text containing the compass token at
position 2, right after text on which the malformed marker matches. -/
theorem compass_never_malformed_witness :
    (2, Replacement.compass)
        ∈ scanFrom 0 "ab\x7b\x7b#diataxis compass\x7d\x7d".data
      ∧ (2, Replacement.malformed)
        ∉ scanFrom 0 "ab\x7b\x7b#diataxis compass\x7d\x7d".data :=
  ⟨((compass_never_malformed "ab\x7b\x7b#diataxis compass\x7d\x7d".data 2).1
      (by unfold occursAt; decide)).1,
   ((compass_never_malformed "ab\x7b\x7b#diataxis compass\x7d\x7d".data 2).1
      (by unfold occursAt; decide)).2.2⟩

/-! ## C6: link normalization -/

theorem lastComponent_dirPrefix (cs : List Char) :
    dirPrefixChars cs ++ lastComponentChars cs = cs := by
  unfold dirPrefixChars lastComponentChars
  rw [← List.reverse_append, List.takeWhile_append_dropWhile, List.reverse_reverse]

theorem dropWhile_slash_shape (l : List Char) :
    l.dropWhile (fun c => c ≠ '/') = []
      ∨ ∃ t, l.dropWhile (fun c => c ≠ '/') = '/' :: t := by
  induction l with
  | nil => exact Or.inl rfl
  | cons x l ih =>
    rw [List.dropWhile_cons]
    by_cases hx : x = '/'
    · subst hx
      simp
    · simpa [hx] using ih

theorem dirPrefix_shape (cs : List Char) :
    dirPrefixChars cs = [] ∨ ∃ t, dirPrefixChars cs = t ++ ['/'] := by
  unfold dirPrefixChars
  rcases dropWhile_slash_shape cs.reverse with h | ⟨t, h⟩
  · rw [h]
    exact Or.inl rfl
  · rw [h]
    exact Or.inr ⟨t.reverse, by simp⟩

theorem lastComponent_append (dir g : List Char)
    (hg : ∀ c ∈ g, c ≠ '/')
    (hd : dir = [] ∨ ∃ t, dir = t ++ ['/']) :
    lastComponentChars (dir ++ g) = g ∧ dirPrefixChars (dir ++ g) = dir := by
  have hgrev : ∀ c ∈ g.reverse, (fun c => decide (c ≠ '/')) c = true := by
    intro c hc
    simp only [decide_eq_true_eq]
    exact hg c (List.mem_reverse.mp hc)
  rcases hd with rfl | ⟨t, rfl⟩
  · have htk := takeWhile_append_all (fun c => decide (c ≠ '/')) g.reverse [] hgrev
    have hdp := dropWhile_append_all (fun c => decide (c ≠ '/')) g.reverse [] hgrev
    rw [List.append_nil] at htk hdp
    constructor
    · unfold lastComponentChars
      rw [List.nil_append, htk]
      simp
    · unfold dirPrefixChars
      rw [List.nil_append, hdp]
      simp
  · have htk := takeWhile_append_all (fun c => decide (c ≠ '/')) g.reverse
      ('/' :: t.reverse) hgrev
    have hdp := dropWhile_append_all (fun c => decide (c ≠ '/')) g.reverse
      ('/' :: t.reverse) hgrev
    have hrev : ((t ++ ['/']) ++ g).reverse = g.reverse ++ ('/' :: t.reverse) := by
      simp
    constructor
    · unfold lastComponentChars
      rw [hrev, htk]
      rw [List.takeWhile_cons]
      simp
    · unfold dirPrefixChars
      rw [hrev, hdp]
      rw [List.dropWhile_cons]
      simp

theorem normalizeLink_spec (lk f : String) (hf : fileName lk = some f) :
    List.isSuffixOf ".html".data (normalizeLink lk).data = true ∧
    (f = "README.md" → fileName (normalizeLink lk) = some "index.html") := by
  unfold normalizeLink
  by_cases hR : f = "README.md"
  · subst hR
    rw [if_pos hf]
    have hd := dirPrefix_shape lk.data
    have hidx : ∀ c ∈ "index.html".data, c ≠ '/' := by decide
    have h45 := lastComponent_append (dirPrefixChars lk.data) "index.html".data hidx hd
    have hpathdata : (withFileName lk "index.html").data
        = dirPrefixChars lk.data ++ "index.html".data := rfl
    have hfn : fileName (withFileName lk "index.html") = some "index.html" := by
      unfold fileName
      rw [hpathdata, h45.1]
      rfl
    have hset : setExtension (withFileName lk "index.html") "html"
        = withFileName lk "index.html" := by
      unfold setExtension
      rw [hfn]
      show String.mk (dirPrefixChars (withFileName lk "index.html").data
        ++ fileStemChars "index.html".data ++ '.' :: "html".data) = _
      rw [hpathdata, h45.2]
      show String.mk (dirPrefixChars lk.data ++ "index".data ++ ".html".data) = _
      unfold withFileName
      rw [List.append_assoc]
      rfl
    rw [hset]
    constructor
    · rw [List.isSuffixOf_iff_suffix, hpathdata]
      have : ".html".data <:+ "index.html".data := ⟨"index".data, rfl⟩
      exact this.trans (List.suffix_append _ _)
    · intro _
      exact hfn
  · rw [if_neg (fun hc => hR (by rw [hf] at hc; exact (Option.some.injEq _ _ ▸ hc)))]
    constructor
    · unfold setExtension
      rw [hf]
      show List.isSuffixOf ".html".data
        (String.mk (dirPrefixChars lk.data ++ fileStemChars f.data ++ '.' :: "html".data)).data
          = true
      rw [List.isSuffixOf_iff_suffix]
      show ".html".data <:+ dirPrefixChars lk.data ++ fileStemChars f.data ++ '.' :: "html".data
      have h1 : '.' :: "html".data = ".html".data := rfl
      rw [h1]
      exact List.suffix_append _ _
    · intro hc
      exact absurd hc hR

/-- C6 counterexample: the empty-string link override is accepted
unchanged — its normalized form is `""`, whose extension is not
`.html` — refuting "in every case the resulting link's extension is
`.html`". -/
theorem link_normalization_counterexample :
    SectionConfig.new [("link", TomlValue.str "")]
        = Except.ok ⟨none, none, some ""⟩
      ∧ List.isSuffixOf ".html".data "".data = false := by
  constructor
  · rfl
  · decide

/-- C6 (amended): for every configured link override whose path has a
file name, the resulting link ends in `.html`, and if the file name is
`README.md` the resulting file name is `index.html`; title and
description overrides are taken verbatim. -/
theorem link_normalization_amended :
    (∀ tbl sc lk f, SectionConfig.new tbl = Except.ok sc →
        tableGet tbl "link" = some (TomlValue.str lk) →
        fileName lk = some f →
        ∃ l, sc.link_override = some l
          ∧ List.isSuffixOf ".html".data l.data = true
          ∧ (f = "README.md" → fileName l = some "index.html")) ∧
    (∀ tbl sc t, SectionConfig.new tbl = Except.ok sc →
        tableGet tbl "title" = some (TomlValue.str t) → sc.title_override = some t) ∧
    (∀ tbl sc d, SectionConfig.new tbl = Except.ok sc →
        tableGet tbl "description" = some (TomlValue.str d) →
        sc.description_override = some d) := by
  refine ⟨?_, ?_, ?_⟩
  · intro tbl sc lk f hok hlink hf
    unfold SectionConfig.new at hok
    have hl : readStrField tbl "link" "`link` field must be a string"
        = Except.ok (some lk) := by
      unfold readStrField
      rw [hlink]
      rfl
    cases h1 : readStrField tbl "title" "`title` field must be a string" with
    | error e => rw [h1] at hok; cases hok
    | ok o1 =>
      rw [h1] at hok
      cases h2 : readStrField tbl "description" "`description` field must be a string" with
      | error e => rw [h2] at hok; cases hok
      | ok o2 =>
        rw [h2, hl] at hok
        cases hok
        refine ⟨normalizeLink lk, rfl, ?_, ?_⟩
        · exact (normalizeLink_spec lk f hf).1
        · exact (normalizeLink_spec lk f hf).2
  · intro tbl sc t hok htitle
    unfold SectionConfig.new at hok
    have h1 : readStrField tbl "title" "`title` field must be a string"
        = Except.ok (some t) := by
      unfold readStrField
      rw [htitle]
      rfl
    rw [h1] at hok
    cases h2 : readStrField tbl "description" "`description` field must be a string" with
    | error e => rw [h2] at hok; cases hok
    | ok o2 =>
      rw [h2] at hok
      cases h3 : readStrField tbl "link" "`link` field must be a string" with
      | error e => rw [h3] at hok; cases hok
      | ok o3 =>
        rw [h3] at hok
        cases hok
        rfl
  · intro tbl sc d hok hdesc
    unfold SectionConfig.new at hok
    have h2 : readStrField tbl "description" "`description` field must be a string"
        = Except.ok (some d) := by
      unfold readStrField
      rw [hdesc]
      rfl
    cases h1 : readStrField tbl "title" "`title` field must be a string" with
    | error e => rw [h1] at hok; cases hok
    | ok o1 =>
      rw [h1, h2] at hok
      cases h3 : readStrField tbl "link" "`link` field must be a string" with
      | error e => rw [h3] at hok; cases hok
      | ok o3 =>
        rw [h3] at hok
        cases hok
        rfl

/-- Witness for C6 at the configured links of the repository's own
test (`custom-tutorials/README.md`). -/
theorem link_normalization_amended_witness :
    ∃ l, (SectionConfig.mk none none
        (some "custom-tutorials/index.html")).link_override = some l
      ∧ List.isSuffixOf ".html".data l.data = true
      ∧ ("README.md" = "README.md" → fileName l = some "index.html") :=
  link_normalization_amended.1 [("link", TomlValue.str "custom-tutorials/README.md")]
    (SectionConfig.mk none none (some "custom-tutorials/index.html"))
    "custom-tutorials/README.md" "README.md" rfl rfl rfl

/-! ## C5: idempotence of the text substitution

Helper layer: occurrence decomposition over appends and the span-killing
arguments used to show the rendered replacements introduce no directive
token. -/

theorem head?_append_left {A B : List Char} {a : Char} (h : A.head? = some a) :
    (A ++ B).head? = some a := by
  cases A with
  | nil => cases h
  | cons x xs => exact h

theorem suffix_append_right (A : List Char) {B C : List Char} (h : C <:+ B) :
    C <:+ A ++ B := by
  obtain ⟨u, rfl⟩ := h
  exact ⟨A ++ u, by rw [List.append_assoc]⟩

theorem suffix_getLast? {s A : List Char} (h : s <:+ A) (hne : s ≠ []) :
    A.getLast? = s.getLast? := by
  obtain ⟨u, rfl⟩ := h
  obtain ⟨x, hx⟩ := Option.isSome_iff_exists.mp (by rwa [List.getLast?_isSome])
  rw [List.getLast?_append, hx]
  rfl

theorem hasSub_mono_prefix (p1 p2 : List Char) (hp : p1 <+: p2) :
    ∀ A : List Char, hasSub p2 A = true → hasSub p1 A = true := by
  intro A
  induction A with
  | nil =>
    intro h
    unfold hasSub at *
    rw [List.isPrefixOf_iff_prefix] at *
    exact hp.trans h
  | cons c cs ih =>
    intro h
    rw [hasSub_cons] at *
    rcases Bool.or_eq_true_iff.mp h with h | h
    · rw [List.isPrefixOf_iff_prefix] at h
      rw [Bool.or_eq_true_iff]
      exact Or.inl (List.isPrefixOf_iff_prefix.mpr (hp.trans h))
    · rw [Bool.or_eq_true_iff]
      exact Or.inr (ih h)

theorem hasSub_length_le (pat : List Char) :
    ∀ A : List Char, hasSub pat A = true → pat.length ≤ A.length := by
  intro A
  induction A with
  | nil =>
    intro h
    unfold hasSub at h
    rw [List.isPrefixOf_iff_prefix] at h
    exact h.length_le
  | cons c cs ih =>
    intro h
    rw [hasSub_cons] at h
    rcases Bool.or_eq_true_iff.mp h with h | h
    · rw [List.isPrefixOf_iff_prefix] at h
      exact h.length_le
    · have := ih h
      simp only [List.length_cons]
      omega

theorem hasSub_append_cases (pat : List Char) :
    ∀ A B : List Char, hasSub pat (A ++ B) = true →
      hasSub pat A = true ∨ hasSub pat B = true
        ∨ ∃ k, 0 < k ∧ k < pat.length ∧ (pat.take k) <:+ A ∧ (pat.drop k) <+: B := by
  intro A
  induction A with
  | nil =>
    intro B h
    rw [List.nil_append] at h
    exact Or.inr (Or.inl h)
  | cons a A' ih =>
    intro B h
    rw [List.cons_append, hasSub_cons] at h
    rcases Bool.or_eq_true_iff.mp h with h | h
    · rw [List.isPrefixOf_iff_prefix] at h
      have hform : a :: (A' ++ B) = (a :: A') ++ B := rfl
      rw [hform] at h
      have heqtake : pat = ((a :: A') ++ B).take pat.length := List.prefix_iff_eq_take.mp h
      rcases le_or_lt pat.length (a :: A').length with hle | hgt
      · left
        have h2 : ((a :: A') ++ B).take pat.length = (a :: A').take pat.length := by
          rw [List.take_append_eq_append_take, Nat.sub_eq_zero_of_le hle]
          simp
        have hpre : pat <+: a :: A' := by
          rw [heqtake, h2]
          exact List.take_prefix _ _
        exact hasSub_of_isPrefixOf pat _ (List.isPrefixOf_iff_prefix.mpr hpre)
      · right; right
        refine ⟨(a :: A').length, by simp, hgt, ?_, ?_⟩
        · have htake : pat.take (a :: A').length = a :: A' := by
            conv_lhs => rw [heqtake]
            rw [List.take_take, Nat.min_eq_left (by omega), List.take_left]
          rw [htake]
        · obtain ⟨t, ht⟩ := h
          have hd := congrArg (List.drop (a :: A').length) ht
          rw [List.drop_append_of_le_length (by omega), List.drop_left] at hd
          exact ⟨t, hd⟩
    · rcases ih B h with h | h | ⟨k, hk0, hkl, hsuf, hpre⟩
      · exact Or.inl (by rw [hasSub_cons]; rw [h]; simp)
      · exact Or.inr (Or.inl h)
      · exact Or.inr (Or.inr ⟨k, hk0, hkl, hsuf.trans (List.suffix_cons a A'), hpre⟩)

theorem noOcc_append (pat : List Char) (A B : List Char)
    (hA : hasSub pat A = false) (hB : hasSub pat B = false)
    (hspan : ∀ k, 0 < k → k < pat.length →
      ¬((pat.take k) <:+ A ∧ (pat.drop k) <+: B)) :
    hasSub pat (A ++ B) = false := by
  cases hs : hasSub pat (A ++ B) with
  | false => rfl
  | true =>
    exfalso
    rcases hasSub_append_cases pat A B hs with h | h | ⟨k, hk0, hkl, hsuf, hpre⟩
    · rw [h] at hA; cases hA
    · rw [h] at hB; cases hB
    · exact hspan k hk0 hkl ⟨hsuf, hpre⟩

theorem span_kill_right (pat B : List Char) (b : Char) (hb : B.head? = some b)
    (hnb : b ∉ pat) (k : Nat) (hk : k < pat.length) : ¬ ((pat.drop k) <+: B) := by
  intro hpre
  have hne : pat.drop k ≠ [] := by
    intro hnil
    rw [List.drop_eq_nil_iff] at hnil
    omega
  obtain ⟨x, ys, hxy⟩ := List.exists_cons_of_ne_nil hne
  obtain ⟨t, ht⟩ := hpre
  rw [hxy] at ht
  have hBx : B.head? = some x := by
    rw [← ht]
    rfl
  rw [hb] at hBx
  injection hBx with hbx
  subst hbx
  have hxmem : b ∈ pat := List.drop_subset k pat (by rw [hxy]; exact List.mem_cons_self _ _)
  exact hnb hxmem

theorem span_kill_left (pat A : List Char) (a : Char) (ha : A.getLast? = some a)
    (hna : a ∉ pat) (k : Nat) (hk0 : 0 < k) (htok : pat ≠ []) :
    ¬ ((pat.take k) <:+ A) := by
  intro hsuf
  have hne : pat.take k ≠ [] := by
    intro hnil
    rw [List.take_eq_nil_iff] at hnil
    rcases hnil with h | h
    · omega
    · exact htok h
  have h1 := suffix_getLast? hsuf hne
  rw [ha] at h1
  have hmem : a ∈ pat.take k := List.mem_of_mem_getLast? (Option.mem_def.mpr h1.symm)
  exact hna (List.take_subset k pat hmem)

theorem prefix_glue (p1 p2 xs : List Char) (h1 : p1 <+: xs)
    (h2 : p2 <+: xs.drop p1.length) : (p1 ++ p2) <+: xs := by
  obtain ⟨t, rfl⟩ := h1
  rw [List.drop_left] at h2
  obtain ⟨u, rfl⟩ := h2
  exact ⟨u, by rw [List.append_assoc]⟩

theorem hasSub_nil_of_ne_nil (pat : List Char) (h : pat ≠ []) :
    hasSub pat [] = false := by
  cases pat with
  | nil => exact absurd rfl h
  | cons c cs => rfl

/-- Decidable facts about the two well-formed directive tokens used in
the idempotence argument: length, absence of `&`, every `-` followed by
a non-space, `\x7b` only at position 1, and `#` at position 2. -/
theorem tok_facts (tok : List Char) (htok : tok = compassChars ∨ tok = tocChars) :
    2 < tok.length ∧
    (∀ j, j < tok.length → ¬ tok[j]? = some '&') ∧
    (∀ j, j < tok.length → tok[j]? = some '-' →
      j + 1 < tok.length ∧ ¬ tok[j + 1]? = some ' ') ∧
    (∀ j, j < tok.length → 0 < j → tok[j]? = some '\x7b' → j = 1) ∧
    tok[2]? = some '#' := by
  rcases htok with rfl | rfl <;>
    exact ⟨by decide, by decide, by decide, by decide, by decide⟩

/-- Transfer lemma: a nonempty proper tail of a well-formed token that
is a prefix of the substitution's output is already a prefix of its
input, provided the replacement texts satisfy the boundary conditions
(and, when the TOC replacement is empty, the input holds no TOC token). -/
theorem drop_transfer (rc rt : List Char) (hc : ReplConds rc rt)
    (tok : List Char) (htok : tok = compassChars ∨ tok = tocChars) :
    ∀ xs : List Char, (rt = [] → hasSub tocChars xs = false) →
      ∀ j, 1 ≤ j → j < tok.length →
        tok.drop j <+: replaceAll rc rt xs → tok.drop j <+: xs := by
  obtain ⟨hlen3, hamp, hdash, hbrace1, hhash⟩ := tok_facts tok htok
  intro xs
  induction xs using replaceAll.induct rc rt with
  | case1 =>
    intro _ j _ _ h
    rw [replaceAll_nil] at h
    exact h
  | case2 c cs h1 ih =>
    intro hrt j h1j hjl h
    exfalso
    have hrtne : rt ≠ [] := by
      intro hrtnil
      have hh := hrt hrtnil
      rw [hasSub_of_isPrefixOf _ _ h1] at hh
      cases hh
    rcases hc.rt_shape with hsh | ⟨⟨z, hz⟩, _⟩
    · exact hrtne hsh
    rw [replaceAll_toc rc rt _ h1, hz, List.cons_append, List.cons_append] at h
    have hb := List.isPrefixOf_iff_prefix.mpr h
    have e0 := isPrefixOf_getElem _ _ hb 0 (by rw [List.length_drop]; omega)
    rw [List.getElem?_drop] at e0
    have hd0 : tok[j]? = some '-' := by simpa using e0.symm
    obtain ⟨hjlt2, hnsp⟩ := hdash j hjl hd0
    have e1 := isPrefixOf_getElem _ _ hb 1 (by rw [List.length_drop]; omega)
    rw [List.getElem?_drop] at e1
    have hd1 : tok[j + 1]? = some ' ' := by simpa using e1.symm
    exact hnsp hd1
  | case3 c cs h1 h2 ih =>
    intro hrt j h1j hjl h
    exfalso
    have h1' : List.isPrefixOf tocChars (c :: cs) = false := by
      simp only [Bool.not_eq_true] at h1; exact h1
    rw [replaceAll_compass rc rt _ h1' h2] at h
    have hb := List.isPrefixOf_iff_prefix.mpr h
    have e0 := isPrefixOf_getElem _ _ hb 0 (by rw [List.length_drop]; omega)
    rw [List.getElem?_drop] at e0
    have hh : (rc ++ replaceAll rc rt ((c :: cs).drop compassChars.length)).head?
        = some '&' := head?_append_left hc.rc_head
    rw [List.head?_eq_getElem?] at hh
    rw [hh] at e0
    exact hamp j hjl (by simpa using e0.symm)
  | case4 c cs h1 h2 h3 ih =>
    intro hrt j h1j hjl h
    exfalso
    have h1' : List.isPrefixOf tocChars (c :: cs) = false := by
      simp only [Bool.not_eq_true] at h1; exact h1
    have h2' : List.isPrefixOf compassChars (c :: cs) = false := by
      simp only [Bool.not_eq_true] at h2; exact h2
    rw [replaceAll_malformed rc rt _ h1' h2' h3] at h
    have hb := List.isPrefixOf_iff_prefix.mpr h
    have e0 := isPrefixOf_getElem _ _ hb 0 (by rw [List.length_drop]; omega)
    rw [List.getElem?_drop] at e0
    have hL0 : (malformedChars ++ replaceAll rc rt ((c :: cs).drop malformedChars.length))[0]?
        = some '\x7b' := rfl
    rw [hL0] at e0
    have hj1 : j = 1 := hbrace1 j hjl (by omega) (by simpa using e0.symm)
    subst hj1
    have e1 := isPrefixOf_getElem _ _ hb 1 (by rw [List.length_drop]; omega)
    rw [List.getElem?_drop] at e1
    have hL1 : (malformedChars ++ replaceAll rc rt ((c :: cs).drop malformedChars.length))[1]?
        = some '\x7b' := rfl
    rw [hL1] at e1
    have hx : tok[2]? = some '\x7b' := by simpa using e1.symm
    rw [hhash] at hx
    exact absurd hx (by decide)
  | case5 c cs h1 h2 h3 ih =>
    intro hrt j h1j hjl h
    have h1' : List.isPrefixOf tocChars (c :: cs) = false := by
      simp only [Bool.not_eq_true] at h1; exact h1
    have h2' : List.isPrefixOf compassChars (c :: cs) = false := by
      simp only [Bool.not_eq_true] at h2; exact h2
    have h3' : List.isPrefixOf malformedChars (c :: cs) = false := by
      simp only [Bool.not_eq_true] at h3; exact h3
    rw [replaceAll_copy rc rt c cs h1' h2' h3'] at h
    rw [List.drop_eq_getElem_cons hjl] at h ⊢
    obtain ⟨heq, htail⟩ := List.cons_prefix_cons.mp h
    rcases le_or_lt tok.length (j + 1) with hge | hlt
    · have hnil : tok.drop (j + 1) = [] := List.drop_eq_nil_of_le hge
      rw [hnil]
      exact List.cons_prefix_cons.mpr ⟨heq, List.nil_prefix⟩
    · have hrt' : rt = [] → hasSub tocChars cs = false := by
        intro hrtnil
        have hh := hrt hrtnil
        rw [hasSub_cons] at hh
        exact (Bool.or_eq_false_iff.mp hh).2
      exact List.cons_prefix_cons.mpr ⟨heq, ih hrt' (j + 1) (by omega) hlt htail⟩

theorem noOcc_var_then (pat s REST : List Char) (b : Char)
    (hs : hasSub pat s = false) (hb : REST.head? = some b) (hnb : b ∉ pat)
    (hREST : hasSub pat REST = false) : hasSub pat (s ++ REST) = false :=
  noOcc_append pat s REST hs hREST
    (fun k _ hkl h => span_kill_right pat REST b hb hnb k hkl h.2)

theorem noOcc_fixed_then (pat P REST : List Char)
    (hP : hasSub pat P = false)
    (hkill : ∀ k, k < pat.length → 0 < k → ¬ (pat.take k <:+ P))
    (hREST : hasSub pat REST = false) : hasSub pat (P ++ REST) = false :=
  noOcc_append pat P REST hP hREST
    (fun k hk0 hkl h => hkill k hkl hk0 h.1)

/-- The substitution's output never contains a well-formed directive
token, under the boundary conditions on the replacement texts. -/
theorem replaceAll_noTok (rc rt : List Char) (hc : ReplConds rc rt)
    (tok : List Char) (htok : tok = compassChars ∨ tok = tocChars) :
    ∀ xs : List Char, (rt = [] → hasSub tocChars xs = false) →
      hasSub tok (replaceAll rc rt xs) = false := by
  have htokne : tok ≠ [] := by rcases htok with rfl | rfl <;> decide
  have hnoC : hasSub tok rc = false := by
    rcases htok with rfl | rfl
    · exact hc.rc_noOcc_c
    · exact hc.rc_noOcc_t
  have hnoT : hasSub tok rt = false := by
    rcases htok with rfl | rfl
    · exact hc.rt_noOcc_c
    · exact hc.rt_noOcc_t
  have hkillC : ∀ k, 0 < k → k < tok.length → ¬ (tok.take k <:+ rc) := by
    rcases htok with rfl | rfl
    · exact hc.rc_take_c
    · exact hc.rc_take_t
  have hkillT : ∀ k, 0 < k → k < tok.length → ¬ (tok.take k <:+ rt) := by
    rcases htok with rfl | rfl
    · exact hc.rt_take_c
    · exact hc.rt_take_t
  have hnoM : hasSub tok malformedChars = false := by
    rcases htok with rfl | rfl <;> decide
  have hM11 : ∀ k, k < tok.length → 0 < k → tok.take k <:+ malformedChars →
      k = malformedChars.length := by
    rcases htok with rfl | rfl <;> decide
  have htkM : tok.take malformedChars.length = malformedChars := by
    rcases htok with rfl | rfl <;> decide
  have hmllt : malformedChars.length < tok.length := by
    rcases htok with rfl | rfl <;> decide
  intro xs
  induction xs using replaceAll.induct rc rt with
  | case1 =>
    intro _
    rw [replaceAll_nil]
    exact hasSub_nil_of_ne_nil tok htokne
  | case2 c cs h1 ih =>
    intro hrt
    have hrt' : rt = [] → hasSub tocChars ((c :: cs).drop tocChars.length) = false := by
      intro hrtnil
      exfalso
      have hh := hrt hrtnil
      rw [hasSub_of_isPrefixOf _ _ h1] at hh
      cases hh
    rw [replaceAll_toc rc rt _ h1]
    refine noOcc_append tok rt _ hnoT (ih hrt') ?_
    exact fun k hk0 hkl h => hkillT k hk0 hkl h.1
  | case3 c cs h1 h2 ih =>
    intro hrt
    have h1' : List.isPrefixOf tocChars (c :: cs) = false := by
      simp only [Bool.not_eq_true] at h1; exact h1
    have hrt' : rt = [] → hasSub tocChars ((c :: cs).drop compassChars.length) = false := by
      intro hrtnil
      have hh := hrt hrtnil
      cases hd : hasSub tocChars ((c :: cs).drop compassChars.length)
      · rfl
      · rw [hasSub_of_drop tocChars (c :: cs) compassChars.length hd] at hh
        cases hh
    rw [replaceAll_compass rc rt _ h1' h2]
    refine noOcc_append tok rc _ hnoC (ih hrt') ?_
    exact fun k hk0 hkl h => hkillC k hk0 hkl h.1
  | case4 c cs h1 h2 h3 ih =>
    intro hrt
    have h1' : List.isPrefixOf tocChars (c :: cs) = false := by
      simp only [Bool.not_eq_true] at h1; exact h1
    have h2' : List.isPrefixOf compassChars (c :: cs) = false := by
      simp only [Bool.not_eq_true] at h2; exact h2
    have hrt' : rt = [] → hasSub tocChars ((c :: cs).drop malformedChars.length) = false := by
      intro hrtnil
      have hh := hrt hrtnil
      cases hd : hasSub tocChars ((c :: cs).drop malformedChars.length)
      · rfl
      · rw [hasSub_of_drop tocChars (c :: cs) malformedChars.length hd] at hh
        cases hh
    rw [replaceAll_malformed rc rt _ h1' h2' h3]
    refine noOcc_append tok malformedChars _ hnoM (ih hrt') ?_
    intro k hk0 hkl hand
    obtain ⟨hl, hr⟩ := hand
    have hk11 : k = malformedChars.length := hM11 k hkl hk0 hl
    subst hk11
    have htr := drop_transfer rc rt hc tok htok ((c :: cs).drop malformedChars.length)
      hrt' malformedChars.length (by decide) hmllt hr
    have hpre : tok <+: c :: cs := by
      have hg := prefix_glue (tok.take malformedChars.length) (tok.drop malformedChars.length)
        (c :: cs) (by rw [htkM]; exact List.isPrefixOf_iff_prefix.mp h3) ?_
      · rwa [List.take_append_drop] at hg
      · rw [List.length_take, Nat.min_eq_left (le_of_lt hmllt)]
        exact htr
    have hb := List.isPrefixOf_iff_prefix.mpr hpre
    rcases htok with rfl | rfl
    · rw [hb] at h2'; cases h2'
    · rw [hb] at h1'; cases h1'
  | case5 c cs h1 h2 h3 ih =>
    intro hrt
    have h1' : List.isPrefixOf tocChars (c :: cs) = false := by
      simp only [Bool.not_eq_true] at h1; exact h1
    have h2' : List.isPrefixOf compassChars (c :: cs) = false := by
      simp only [Bool.not_eq_true] at h2; exact h2
    have h3' : List.isPrefixOf malformedChars (c :: cs) = false := by
      simp only [Bool.not_eq_true] at h3; exact h3
    have hrt' : rt = [] → hasSub tocChars cs = false := by
      intro hrtnil
      have hh := hrt hrtnil
      rw [hasSub_cons] at hh
      exact (Bool.or_eq_false_iff.mp hh).2
    rw [replaceAll_copy rc rt c cs h1' h2' h3']
    rw [hasSub_cons, ih hrt']
    simp only [Bool.or_false]
    cases hp : List.isPrefixOf tok (c :: replaceAll rc rt cs)
    · rfl
    · exfalso
      have hpr := List.isPrefixOf_iff_prefix.mp hp
      have h0lt : 0 < tok.length := List.length_pos.mpr htokne
      have hd := List.drop_eq_getElem_cons h0lt
      rw [List.drop_zero] at hd
      rw [hd] at hpr
      obtain ⟨heq, htail⟩ := List.cons_prefix_cons.mp hpr
      have hlt1 : 1 < tok.length := by rcases htok with rfl | rfl <;> decide
      have htail' := drop_transfer rc rt hc tok htok cs hrt' 1 (le_refl 1) hlt1 htail
      have hpre2 : tok <+: c :: cs := by
        rw [hd]
        exact List.cons_prefix_cons.mpr ⟨heq, htail'⟩
      have hb := List.isPrefixOf_iff_prefix.mpr hpre2
      rcases htok with rfl | rfl
      · exact h2 hb
      · exact h1 hb

/-- Text without any well-formed directive token is a fixed point of the
substitution (malformed markers are reproduced verbatim, so they are
harmless here). -/
theorem replaceAll_fixed (rc rt : List Char) :
    ∀ xs : List Char, hasSub compassChars xs = false → hasSub tocChars xs = false →
      replaceAll rc rt xs = xs := by
  intro xs
  induction xs using replaceAll.induct rc rt with
  | case1 => intro _ _; exact replaceAll_nil rc rt
  | case2 c cs h1 ih =>
    intro hC hT
    exfalso
    rw [hasSub_of_isPrefixOf _ _ h1] at hT
    cases hT
  | case3 c cs h1 h2 ih =>
    intro hC hT
    exfalso
    rw [hasSub_of_isPrefixOf _ _ h2] at hC
    cases hC
  | case4 c cs h1 h2 h3 ih =>
    intro hC hT
    have h1' : List.isPrefixOf tocChars (c :: cs) = false := by
      simp only [Bool.not_eq_true] at h1; exact h1
    have h2' : List.isPrefixOf compassChars (c :: cs) = false := by
      simp only [Bool.not_eq_true] at h2; exact h2
    have hCd : hasSub compassChars ((c :: cs).drop malformedChars.length) = false := by
      cases hd : hasSub compassChars ((c :: cs).drop malformedChars.length)
      · rfl
      · rw [hasSub_of_drop compassChars (c :: cs) malformedChars.length hd] at hC
        cases hC
    have hTd : hasSub tocChars ((c :: cs).drop malformedChars.length) = false := by
      cases hd : hasSub tocChars ((c :: cs).drop malformedChars.length)
      · rfl
      · rw [hasSub_of_drop tocChars (c :: cs) malformedChars.length hd] at hT
        cases hT
    rw [replaceAll_malformed rc rt _ h1' h2' h3, ih hCd hTd]
    obtain ⟨t, ht⟩ := List.isPrefixOf_iff_prefix.mp h3
    rw [← ht, List.drop_left]
  | case5 c cs h1 h2 h3 ih =>
    intro hC hT
    have h1' : List.isPrefixOf tocChars (c :: cs) = false := by
      simp only [Bool.not_eq_true] at h1; exact h1
    have h2' : List.isPrefixOf compassChars (c :: cs) = false := by
      simp only [Bool.not_eq_true] at h2; exact h2
    have h3' : List.isPrefixOf malformedChars (c :: cs) = false := by
      simp only [Bool.not_eq_true] at h3; exact h3
    have hCd : hasSub compassChars cs = false := by
      rw [hasSub_cons] at hC
      exact (Bool.or_eq_false_iff.mp hC).2
    have hTd : hasSub tocChars cs = false := by
      rw [hasSub_cons] at hT
      exact (Bool.or_eq_false_iff.mp hT).2
    rw [replaceAll_copy rc rt c cs h1' h2' h3', ih hCd hTd]

/-- Idempotence of the substitution under the boundary conditions. -/
theorem replaceAll_idem (rc rt : List Char) (hc : ReplConds rc rt) :
    ∀ xs : List Char, (rt = [] → hasSub tocChars xs = false) →
      replaceAll rc rt (replaceAll rc rt xs) = replaceAll rc rt xs :=
  fun xs hrt => replaceAll_fixed rc rt (replaceAll rc rt xs)
    (replaceAll_noTok rc rt hc compassChars (Or.inl rfl) xs hrt)
    (replaceAll_noTok rc rt hc tocChars (Or.inr rfl) xs hrt)

/-- A marker-free string holds no occurrence of either well-formed
token (the marker is a prefix of both). -/
theorem noOcc_of_markerFree (tok : List Char)
    (htok : tok = compassChars ∨ tok = tocChars) (s : String)
    (hs : markerFree s) : hasSub tok s.data = false := by
  cases hss : hasSub tok s.data
  · rfl
  · exfalso
    have hmono := hasSub_mono_prefix malformedChars tok
      (by rcases htok with rfl | rfl <;> decide) s.data hss
    unfold markerFree at hs
    rw [hmono] at hs
    cases hs

theorem noOcc_card (tok : List Char)
    (hq : '"' ∉ tok) (hlt : '<' ∉ tok) (hnl : '\n' ∉ tok)
    (hca : hasSub tok cardA.data = false)
    (hcak : ∀ k, k < tok.length → 0 < k → ¬ (tok.take k <:+ cardA.data))
    (hcb : hasSub tok cardB.data = false)
    (hcbk : ∀ k, k < tok.length → 0 < k → ¬ (tok.take k <:+ cardB.data))
    (hcc : hasSub tok cardC.data = false)
    (hcck : ∀ k, k < tok.length → 0 < k → ¬ (tok.take k <:+ cardC.data))
    (hcd : hasSub tok cardD.data = false)
    (hcdk : ∀ k, k < tok.length → 0 < k → ¬ (tok.take k <:+ cardD.data))
    (lnk ttl dsc REST : List Char)
    (hl : hasSub tok lnk = false) (ht : hasSub tok ttl = false)
    (hd : hasSub tok dsc = false) (hr : hasSub tok REST = false) :
    hasSub tok (cardA.data ++ (lnk ++ (cardB.data ++ (ttl ++ (cardC.data ++
      (dsc ++ (cardD.data ++ REST))))))) = false := by
  refine noOcc_fixed_then tok _ _ hca hcak ?_
  refine noOcc_var_then tok _ _ '"' hl
    (head?_append_left (show cardB.data.head? = some '"' from rfl)) hq ?_
  refine noOcc_fixed_then tok _ _ hcb hcbk ?_
  refine noOcc_var_then tok _ _ '<' ht
    (head?_append_left (show cardC.data.head? = some '<' from rfl)) hlt ?_
  refine noOcc_fixed_then tok _ _ hcc hcck ?_
  refine noOcc_var_then tok _ _ '\n' hd
    (head?_append_left (show cardD.data.head? = some '\n' from rfl)) hnl ?_
  exact noOcc_fixed_then tok _ _ hcd hcdk hr

/-- The compass rendering holds no occurrence of either well-formed
token when the twelve configured strings are marker free. -/
theorem noOcc_writeCompassTo (tok : List Char)
    (htok : tok = compassChars ∨ tok = tocChars)
    (cfg : Config) (hm : cfgMarkerFree cfg) :
    hasSub tok (writeCompassTo cfg).data = false := by
  obtain ⟨m1, m2, m3, m4, m5, m6, m7, m8, m9, m10, m11, m12⟩ := hm
  have hq : '"' ∉ tok := by rcases htok with rfl | rfl <;> decide
  have hlt : '<' ∉ tok := by rcases htok with rfl | rfl <;> decide
  have hnl : '\n' ∉ tok := by rcases htok with rfl | rfl <;> decide
  have hca : hasSub tok cardA.data = false := by rcases htok with rfl | rfl <;> decide
  have hcak : ∀ k, k < tok.length → 0 < k → ¬ (tok.take k <:+ cardA.data) := by
    rcases htok with rfl | rfl <;> decide
  have hcb : hasSub tok cardB.data = false := by rcases htok with rfl | rfl <;> decide
  have hcbk : ∀ k, k < tok.length → 0 < k → ¬ (tok.take k <:+ cardB.data) := by
    rcases htok with rfl | rfl <;> decide
  have hcc : hasSub tok cardC.data = false := by rcases htok with rfl | rfl <;> decide
  have hcck : ∀ k, k < tok.length → 0 < k → ¬ (tok.take k <:+ cardC.data) := by
    rcases htok with rfl | rfl <;> decide
  have hcd : hasSub tok cardD.data = false := by rcases htok with rfl | rfl <;> decide
  have hcdk : ∀ k, k < tok.length → 0 < k → ¬ (tok.take k <:+ cardD.data) := by
    rcases htok with rfl | rfl <;> decide
  have hgo : hasSub tok gridOpen.data = false := by rcases htok with rfl | rfl <;> decide
  have hgok : ∀ k, k < tok.length → 0 < k → ¬ (tok.take k <:+ gridOpen.data) := by
    rcases htok with rfl | rfl <;> decide
  have hgc : hasSub tok gridClose.data = false := by rcases htok with rfl | rfl <;> decide
  unfold writeCompassTo
  simp only [String.data_append]
  refine noOcc_fixed_then tok _ _ hgo hgok ?_
  refine noOcc_card tok hq hlt hnl hca hcak hcb hcbk hcc hcck hcd hcdk _ _ _ _
    (noOcc_of_markerFree tok htok _ m1) (noOcc_of_markerFree tok htok _ m2)
    (noOcc_of_markerFree tok htok _ m3) ?_
  refine noOcc_card tok hq hlt hnl hca hcak hcb hcbk hcc hcck hcd hcdk _ _ _ _
    (noOcc_of_markerFree tok htok _ m4) (noOcc_of_markerFree tok htok _ m5)
    (noOcc_of_markerFree tok htok _ m6) ?_
  refine noOcc_card tok hq hlt hnl hca hcak hcb hcbk hcc hcck hcd hcdk _ _ _ _
    (noOcc_of_markerFree tok htok _ m7) (noOcc_of_markerFree tok htok _ m8)
    (noOcc_of_markerFree tok htok _ m9) ?_
  refine noOcc_card tok hq hlt hnl hca hcak hcb hcbk hcc hcck hcd hcdk _ _ _ _
    (noOcc_of_markerFree tok htok _ m10) (noOcc_of_markerFree tok htok _ m11)
    (noOcc_of_markerFree tok htok _ m12) ?_
  exact hgc

/-- The compass rendering ends with a newline, from the template's
closing line. -/
theorem writeCompassTo_getLast (cfg : Config) :
    (writeCompassTo cfg).data.getLast? = some '\n' := by
  unfold writeCompassTo
  simp only [String.data_append, List.getLast?_append]
  rfl

/-- Every TOC list line ends with a newline. -/
theorem line_getLast (p : List String) (c : Chapter) :
    (chapterChildLine p c).data.getLast? = some '\n' := by
  cases hsp : c.sourcePath with
  | none =>
    simp only [chapterChildLine, hsp, String.data_append, List.getLast?_append]
    rfl
  | some path =>
    simp only [chapterChildLine, hsp, String.data_append, List.getLast?_append]
    rfl

/-- The TOC rendering holds no occurrence of either well-formed token
when every listed child's name and displayed link are marker free. -/
theorem noOcc_tocLines (tok : List Char)
    (htok : tok = compassChars ∨ tok = tocChars) (p : List String) :
    ∀ cl : List Chapter, (∀ c ∈ cl, childEntryMarkerFree p c) →
      hasSub tok (concatLines (cl.map (chapterChildLine p))).data = false := by
  intro cl
  induction cl with
  | nil =>
    intro _
    rw [show (concatLines (([] : List Chapter).map (chapterChildLine p))).data
      = [] from rfl]
    exact hasSub_nil_of_ne_nil tok (by rcases htok with rfl | rfl <;> decide)
  | cons c cl ih =>
    intro hmf
    obtain ⟨hname, hlink⟩ := hmf c (List.mem_cons_self _ _)
    have hrest := ih (fun x hx => hmf x (List.mem_cons_of_mem _ hx))
    rw [List.map_cons,
      show concatLines (chapterChildLine p c :: cl.map (chapterChildLine p))
        = chapterChildLine p c ++ concatLines (cl.map (chapterChildLine p)) from rfl,
      String.data_append]
    cases hsp : c.sourcePath with
    | none =>
      simp only [childLinkDisplay, hsp] at hlink
      simp only [chapterChildLine, hsp, String.data_append, List.append_assoc]
      refine noOcc_fixed_then tok _ _ (by rcases htok with rfl | rfl <;> decide)
        (by rcases htok with rfl | rfl <;> decide) ?_
      refine noOcc_var_then tok _ _ '\n' (noOcc_of_markerFree tok htok _ hname)
        (head?_append_left (show ("\n" : String).data.head? = some '\n' from rfl))
        (by rcases htok with rfl | rfl <;> decide) ?_
      exact noOcc_fixed_then tok _ _ (by rcases htok with rfl | rfl <;> decide)
        (by rcases htok with rfl | rfl <;> decide) hrest
    | some path =>
      simp only [childLinkDisplay, hsp] at hlink
      simp only [chapterChildLine, hsp, String.data_append, List.append_assoc]
      refine noOcc_fixed_then tok _ _ (by rcases htok with rfl | rfl <;> decide)
        (by rcases htok with rfl | rfl <;> decide) ?_
      refine noOcc_var_then tok _ _ ']' (noOcc_of_markerFree tok htok _ hname)
        (head?_append_left (show ("](" : String).data.head? = some ']' from rfl))
        (by rcases htok with rfl | rfl <;> decide) ?_
      refine noOcc_fixed_then tok _ _ (by rcases htok with rfl | rfl <;> decide)
        (by rcases htok with rfl | rfl <;> decide) ?_
      refine noOcc_var_then tok _ _ ')' (noOcc_of_markerFree tok htok _ hlink)
        (head?_append_left (show (")\n" : String).data.head? = some ')' from rfl))
        (by rcases htok with rfl | rfl <;> decide) ?_
      exact noOcc_fixed_then tok _ _ (by rcases htok with rfl | rfl <;> decide)
        (by rcases htok with rfl | rfl <;> decide) hrest

/-- A nonempty TOC rendering ends with a newline. -/
theorem tocLines_getLast (p : List String) :
    ∀ cl : List Chapter, cl ≠ [] →
      (concatLines (cl.map (chapterChildLine p))).data.getLast? = some '\n' := by
  intro cl
  induction cl with
  | nil => intro h; exact absurd rfl h
  | cons c cl ih =>
    intro _
    rw [List.map_cons,
      show concatLines (chapterChildLine p c :: cl.map (chapterChildLine p))
        = chapterChildLine p c ++ concatLines (cl.map (chapterChildLine p)) from rfl,
      String.data_append, List.getLast?_append]
    rcases eq_or_ne cl [] with rfl | hne
    · rw [show (concatLines (([] : List Chapter).map (chapterChildLine p))).data
        = [] from rfl]
      simp only [List.getLast?_nil, Option.none_or]
      exact line_getLast p c
    · rw [ih hne]
      rfl

/-- A nonempty TOC rendering starts with a dash and a space. -/
theorem tocLines_shape (p : List String) :
    ∀ cl : List Chapter, cl ≠ [] →
      ∃ z, (concatLines (cl.map (chapterChildLine p))).data = '-' :: ' ' :: z := by
  intro cl
  cases cl with
  | nil => intro h; exact absurd rfl h
  | cons c cl =>
    intro _
    rw [List.map_cons,
      show concatLines (chapterChildLine p c :: cl.map (chapterChildLine p))
        = chapterChildLine p c ++ concatLines (cl.map (chapterChildLine p)) from rfl,
      String.data_append]
    cases hsp : c.sourcePath with
    | none =>
      refine ⟨(c.name ++ "\n").data
        ++ (concatLines (cl.map (chapterChildLine p))).data, ?_⟩
      simp only [chapterChildLine, hsp, String.data_append, List.append_assoc]
      rfl
    | some path =>
      refine ⟨'[' :: ((c.name ++ ("](" ++ (pathDisplay (relative_to p path) ++ ")\n"))).data
        ++ (concatLines (cl.map (chapterChildLine p))).data), ?_⟩
      simp only [chapterChildLine, hsp, String.data_append, List.append_assoc]
      rfl

/-- The two actual renderings satisfy the boundary conditions, for any
marker-free configuration and any chapter whose child entries are
marker free. -/
theorem renders_ReplConds (cfg : Config) (ch : Chapter)
    (hcfg : cfgMarkerFree cfg)
    (hch : ∀ p, ch.sourcePath = some p →
      ∀ c ∈ chapterChildren ch.subItems, childEntryMarkerFree p c) :
    ReplConds (writeCompassTo cfg).data (writeTocTo ch).data := by
  have hclast := writeCompassTo_getLast cfg
  have HRT : (writeTocTo ch).data = [] ∨
      ((∃ z, (writeTocTo ch).data = '-' :: ' ' :: z) ∧
        (writeTocTo ch).data.getLast? = some '\n') := by
    cases hsp : ch.sourcePath with
    | none =>
      left
      simp only [writeTocTo, hsp]
    | some p =>
      cases hcl : chapterChildren ch.subItems with
      | nil =>
        left
        simp only [writeTocTo, hsp, hcl]
        rfl
      | cons c cl =>
        right
        constructor
        · simp only [writeTocTo, hsp, hcl]
          exact tocLines_shape p (c :: cl) (by simp)
        · simp only [writeTocTo, hsp, hcl]
          exact tocLines_getLast p (c :: cl) (by simp)
  have HRT_noOcc : ∀ tok, tok = compassChars ∨ tok = tocChars →
      hasSub tok (writeTocTo ch).data = false := by
    intro tok htok
    cases hsp : ch.sourcePath with
    | none =>
      simp only [writeTocTo, hsp]
      exact hasSub_nil_of_ne_nil tok (by rcases htok with rfl | rfl <;> decide)
    | some p =>
      simp only [writeTocTo, hsp]
      exact noOcc_tocLines tok htok p (chapterChildren ch.subItems) (hch p hsp)
  have HRT_take : ∀ tok, tok = compassChars ∨ tok = tocChars →
      ∀ k, 0 < k → k < tok.length → ¬ (tok.take k <:+ (writeTocTo ch).data) := by
    intro tok htok k hk0 hkl
    rcases HRT with hnil | ⟨_, hlast⟩
    · rw [hnil]
      intro hsuf
      have heq := List.suffix_nil.mp hsuf
      rw [List.take_eq_nil_iff] at heq
      rcases heq with h | h
      · omega
      · rcases htok with rfl | rfl <;> exact absurd h (by decide)
    · exact span_kill_left tok _ '\n' hlast
        (by rcases htok with rfl | rfl <;> decide) k hk0
        (by rcases htok with rfl | rfl <;> decide)
  refine ⟨?_, ?_, ?_, ?_, ?_, ?_, ?_, ?_, ?_, ?_⟩
  · unfold writeCompassTo
    rw [String.data_append]
    exact head?_append_left (show gridOpen.data.head? = some '&' from rfl)
  · exact noOcc_writeCompassTo compassChars (Or.inl rfl) cfg hcfg
  · exact noOcc_writeCompassTo tocChars (Or.inr rfl) cfg hcfg
  · exact fun k hk0 hkl => span_kill_left compassChars _ '\n' hclast (by decide) k hk0 (by decide)
  · exact fun k hk0 hkl => span_kill_left tocChars _ '\n' hclast (by decide) k hk0 (by decide)
  · exact HRT
  · exact HRT_noOcc compassChars (Or.inl rfl)
  · exact HRT_noOcc tocChars (Or.inr rfl)
  · exact HRT_take compassChars (Or.inl rfl)
  · exact HRT_take tocChars (Or.inr rfl)

/-- The text component of `preprocess_text`'s closure agrees with the
warning-free substitution whenever it succeeds. -/
theorem replaceAllWarn_fst (cfg : Config) (ch : Chapter) :
    ∀ xs : List Char, ∀ ow, replaceAllWarn cfg ch xs = some ow →
      ow.1 = replaceAll (writeCompassTo cfg).data (writeTocTo ch).data xs := by
  intro xs
  induction xs using replaceAllWarn.induct cfg ch with
  | case1 =>
    intro ow h
    rw [replaceAllWarn_nil cfg ch] at h
    injection h with h2
    rw [replaceAll_nil, ← h2]
  | case2 c cs h1 ih =>
    intro ow h
    rw [replaceAllWarn_toc cfg ch _ h1] at h
    rw [Option.map_eq_some'] at h
    obtain ⟨ow', how', hfw⟩ := h
    rw [replaceAll_toc _ _ _ h1, ← ih ow' how', ← hfw]
  | case3 c cs h1 h2 ih =>
    intro ow h
    have h1' : List.isPrefixOf tocChars (c :: cs) = false := by
      simp only [Bool.not_eq_true] at h1; exact h1
    rw [replaceAllWarn_compass cfg ch _ h1' h2] at h
    rw [Option.map_eq_some'] at h
    obtain ⟨ow', how', hfw⟩ := h
    rw [replaceAll_compass _ _ _ h1' h2, ← ih ow' how', ← hfw]
  | case4 c cs h1 h2 h3 hd =>
    intro ow h
    have h1' : List.isPrefixOf tocChars (c :: cs) = false := by
      simp only [Bool.not_eq_true] at h1; exact h1
    have h2' : List.isPrefixOf compassChars (c :: cs) = false := by
      simp only [Bool.not_eq_true] at h2; exact h2
    rw [replaceAllWarn_malformed_draft cfg ch _ h1' h2' h3 hd] at h
    cases h
  | case5 c cs h1 h2 h3 chapterPath hsp ih =>
    intro ow h
    have h1' : List.isPrefixOf tocChars (c :: cs) = false := by
      simp only [Bool.not_eq_true] at h1; exact h1
    have h2' : List.isPrefixOf compassChars (c :: cs) = false := by
      simp only [Bool.not_eq_true] at h2; exact h2
    rw [replaceAllWarn_malformed cfg ch _ chapterPath h1' h2' h3 hsp] at h
    rw [Option.map_eq_some'] at h
    obtain ⟨ow', how', hfw⟩ := h
    rw [replaceAll_malformed _ _ _ h1' h2' h3, ← ih ow' how', ← hfw]
  | case6 c cs h1 h2 h3 ih =>
    intro ow h
    have h1' : List.isPrefixOf tocChars (c :: cs) = false := by
      simp only [Bool.not_eq_true] at h1; exact h1
    have h2' : List.isPrefixOf compassChars (c :: cs) = false := by
      simp only [Bool.not_eq_true] at h2; exact h2
    have h3' : List.isPrefixOf malformedChars (c :: cs) = false := by
      simp only [Bool.not_eq_true] at h3; exact h3
    rw [replaceAllWarn_copy cfg ch c cs h1' h2' h3'] at h
    rw [Option.map_eq_some'] at h
    obtain ⟨ow', how', hfw⟩ := h
    rw [replaceAll_copy _ _ _ _ h1' h2' h3', ← ih ow' how', ← hfw]

/-- C5: counterexample to the claimed unconditional idempotence.  A
chapter with a source path and no children renders the TOC directive as
the empty string; in the text below, removing the embedded
`\x7b\x7bdiataxis table-of-contents\x7d\x7d` token glues the surrounding
characters into a `\x7b\x7bdiataxis compass\x7d\x7d` token, which the
second pass expands, changing the content. -/
theorem rewrite_idempotent_counterexample :
    ∃ out ws out2 ws2,
      preprocess_text Config.defaultCfg (Chapter.mk "Ch" "" (some ["c.md"]) [])
          "\x7b\x7b#diataxis\x7b\x7b#diataxis table-of-contents\x7d\x7d compass\x7d\x7d"
        = some (out, ws) ∧
      preprocess_text Config.defaultCfg (Chapter.mk "Ch" "" (some ["c.md"]) []) out
        = some (out2, ws2) ∧
      out2 ≠ out := by
  refine ⟨"\x7b\x7b#diataxis compass\x7d\x7d", [warnMsg (displayPath ["c.md"])],
    String.mk ((writeCompassTo Config.defaultCfg).data ++ []), [], ?_, ?_, by decide⟩
  · have e3 : replaceAllWarn Config.defaultCfg (Chapter.mk "Ch" "" (some ["c.md"]) [])
        ((("\x7b\x7b#diataxis\x7b\x7b#diataxis table-of-contents\x7d\x7d compass\x7d\x7d").data.drop
          malformedChars.length).drop tocChars.length)
        = some ((("\x7b\x7b#diataxis\x7b\x7b#diataxis table-of-contents\x7d\x7d compass\x7d\x7d").data.drop
          malformedChars.length).drop tocChars.length, []) :=
      replaceAllWarn_id_of_marker_free _ _ _ (by decide)
    have e2 : replaceAllWarn Config.defaultCfg (Chapter.mk "Ch" "" (some ["c.md"]) [])
        (("\x7b\x7b#diataxis\x7b\x7b#diataxis table-of-contents\x7d\x7d compass\x7d\x7d").data.drop
          malformedChars.length)
        = some ((("\x7b\x7b#diataxis\x7b\x7b#diataxis table-of-contents\x7d\x7d compass\x7d\x7d").data.drop
          malformedChars.length).drop tocChars.length, []) := by
      rw [replaceAllWarn_toc Config.defaultCfg (Chapter.mk "Ch" "" (some ["c.md"]) []) _
        (by decide), e3]
      rfl
    have e1 : replaceAllWarn Config.defaultCfg (Chapter.mk "Ch" "" (some ["c.md"]) [])
        ("\x7b\x7b#diataxis\x7b\x7b#diataxis table-of-contents\x7d\x7d compass\x7d\x7d").data
        = some (malformedChars
            ++ ((("\x7b\x7b#diataxis\x7b\x7b#diataxis table-of-contents\x7d\x7d compass\x7d\x7d").data.drop
              malformedChars.length).drop tocChars.length),
          [warnMsg (displayPath ["c.md"])]) := by
      rw [replaceAllWarn_malformed Config.defaultCfg (Chapter.mk "Ch" "" (some ["c.md"]) []) _
        ["c.md"] (by decide) (by decide) (by decide) rfl, e2]
      rfl
    unfold preprocess_text
    rw [e1]
    have hstr : String.mk (malformedChars
        ++ ((("\x7b\x7b#diataxis\x7b\x7b#diataxis table-of-contents\x7d\x7d compass\x7d\x7d").data.drop
          malformedChars.length).drop tocChars.length))
        = "\x7b\x7b#diataxis compass\x7d\x7d" := by decide
    rw [Option.map_some', hstr]
  · have f2 : replaceAllWarn Config.defaultCfg (Chapter.mk "Ch" "" (some ["c.md"]) [])
        ("\x7b\x7b#diataxis compass\x7d\x7d").data
        = some ((writeCompassTo Config.defaultCfg).data ++ [], []) := by
      rw [replaceAllWarn_compass Config.defaultCfg (Chapter.mk "Ch" "" (some ["c.md"]) []) _
        (by decide) (by decide),
        show ("\x7b\x7b#diataxis compass\x7d\x7d").data.drop compassChars.length
          = ([] : List Char) from rfl,
        replaceAllWarn_nil]
      rfl
    unfold preprocess_text
    rw [f2]
    rfl

/-- C5 (amended): for a chapter with a source path, a marker-free
configuration and marker-free child entries, and text that holds no TOC
token whenever the chapter's TOC rendering is empty, re-applying the
text substitution to its own output returns that output unchanged (a
second pass may re-emit diagnostics for malformed markers, which are
reproduced verbatim). -/
theorem rewrite_idempotent_amended (cfg : Config) (ch : Chapter) (p : List String)
    (hp : ch.sourcePath = some p)
    (hcfg : cfgMarkerFree cfg)
    (hch : ∀ c ∈ chapterChildren ch.subItems, childEntryMarkerFree p c)
    (text out : String) (ws : List String)
    (htoc : writeTocTo ch = "" → hasSub tocChars text.data = false)
    (h : preprocess_text cfg ch text = some (out, ws)) :
    ∃ ws2, preprocess_text cfg ch out = some (out, ws2) := by
  have hc : ReplConds (writeCompassTo cfg).data (writeTocTo ch).data := by
    refine renders_ReplConds cfg ch hcfg ?_
    intro p' hp' c hcmem
    rw [hp] at hp'
    injection hp' with he
    subst he
    exact hch c hcmem
  have hrt : (writeTocTo ch).data = [] → hasSub tocChars text.data = false := by
    intro hnil
    apply htoc
    rw [show writeTocTo ch = String.mk (writeTocTo ch).data from rfl, hnil]
  unfold preprocess_text at h
  rw [Option.map_eq_some'] at h
  obtain ⟨ow, how, hfw⟩ := h
  have h1 : String.mk ow.1 = out := congrArg Prod.fst hfw
  have hout : out.data = ow.1 := by rw [← h1]
  have hfst := replaceAllWarn_fst cfg ch text.data ow how
  have htot := replaceAllWarn_total cfg ch p hp out.data
  obtain ⟨ow2, how2⟩ := Option.isSome_iff_exists.mp htot
  have hfst2 := replaceAllWarn_fst cfg ch out.data ow2 how2
  have hidem : replaceAll (writeCompassTo cfg).data (writeTocTo ch).data out.data
      = out.data := by
    rw [hout, hfst]
    exact replaceAll_idem _ _ hc text.data hrt
  have how21 : ow2.1 = out.data := by rw [hfst2, hidem]
  refine ⟨ow2.2, ?_⟩
  unfold preprocess_text
  rw [how2, Option.map_some', how21]

/-- Witness for the amended C5 theorem at a concrete sourced chapter
and directive-free text. -/
theorem rewrite_idempotent_amended_witness :
    ∃ ws2, preprocess_text Config.defaultCfg (Chapter.mk "Ch" "" (some ["c.md"]) [])
        "# Heading: no directives"
      = some ("# Heading: no directives", ws2) :=
  rewrite_idempotent_amended Config.defaultCfg (Chapter.mk "Ch" "" (some ["c.md"]) [])
    ["c.md"] rfl (by unfold cfgMarkerFree markerFree; decide)
    (by intro c hcc; cases hcc)
    "# Heading: no directives" "# Heading: no directives" []
    (fun _ => by decide)
    (by unfold preprocess_text
        rw [replaceAllWarn_id_of_marker_free Config.defaultCfg _ _ (by decide)]
        rfl)

end MdbookDiataxis
